import Mathlib

open List

/-!
Shallow embedding of `@corvid-agent/emitter` (src/index.ts).

The embedding translates the source functions directly:

* `matchWildcard` — the segment-wildcard matcher (src/index.ts lines 65-100).
  The JS `while` loop walks two cursors `pi`/`ei` with a backtrack anchor
  `starPi`/`starEi` (initialised to `-1`); here the anchor pair is an
  `Option (Nat × Nat)` (`none` corresponds to the `-1` sentinel) and the loop
  becomes the recursion `mwGo`, driven by a fuel argument that is large
  enough never to run out (`mwGo_fuel_irrel` below proves the result does
  not depend on the fuel once it exceeds an explicit bound).
* The `Emitter` class becomes the first-order state `EmitterState` plus one
  Lean function per method.  Listener callbacks are represented by a
  behaviour map `beh : Nat → Nat → LAct` from listener id and payload to an
  action: return normally, throw, or run a state transformer (modelling a
  callback that calls back into the emitter, e.g. `off()`).  A dispatch
  returns the resulting state, the ordered log of invoked listener ids, the
  propagated error (if a listener threw — the source has no try/catch), and
  the boolean result.
-/

/-- The delimiter class `/[:.]/` from the source: both `:` and `.` are
accepted as segment delimiters. -/

def sepChar (c : Char) : Bool := c = ':' ∨ c = '.'

/-- Splitting a character list on delimiter characters, with the semantics of
the JS `String.prototype.split` for a single-character class: an empty string
splits into `[""]`, a leading/trailing/doubled delimiter produces empty
segments. -/

def splitChars (acc : List Char) : List Char → List String
  | [] => [String.mk acc.reverse]
  | c :: cs =>
    if sepChar c then String.mk acc.reverse :: splitChars [] cs
    else splitChars (c :: acc) cs

/-- Segment splitting: `s.split(/[:.]/)` from the source. -/

def splitSeg (s : String) : List String := splitChars [] s.data

/-- The main `while (ei < eventParts.length)` loop of `matchWildcard`
(src/index.ts lines 75-93) followed by the trailing-`**` consumption and the
final `pi === patternParts.length` check (lines 95-99): after the event
segments are exhausted the function returns `true` iff every remaining
pattern segment is `"**"`.  `star` is the backtrack anchor `(starPi, starEi)`
(`none` encodes the `-1` sentinel).  The extra fuel argument only drives the
recursion; `mwGo_fuel_irrel` shows it is irrelevant once large enough. -/

def mwGo (pp ee : List String) : Nat → Nat → Nat → Option (Nat × Nat) → Bool
  | 0, _, _, _ => false
  | fuel+1, pi, ei, star =>
    if ei < ee.length then
      if pi < pp.length ∧ pp.getD pi "" = "**" then
        mwGo pp ee fuel (pi+1) ei (some (pi, ei))
      else if pi < pp.length ∧ (pp.getD pi "" = "*" ∨ pp.getD pi "" = ee.getD ei "") then
        mwGo pp ee fuel (pi+1) (ei+1) star
      else
        match star with
        | some (sPi, sEi) => mwGo pp ee fuel (sPi+1) (sEi+1) (some (sPi, sEi+1))
        | none => false
    else
      (pp.drop pi).all (fun s => s == "**")

/-- `matchWildcard(pattern, event)` from src/index.ts lines 65-100. -/

def matchWildcard (pattern event : String) : Bool :=
  let patternParts := splitSeg pattern
  let eventParts := splitSeg event
  mwGo patternParts eventParts
    ((eventParts.length + 2) * (patternParts.length + 2)) 0 0 none

/-! ## Emitter data model

`StoredListener` mirrors the `StoredListener` interface (src/index.ts lines
42-46).  The callback function itself is replaced by a numeric identifier
`id`; JS object identity (used by `off()` and `pruneOnce` via
`indexOf`/`findIndex`) becomes identity of `id`.  The behaviour of the
callbacks is supplied separately to the dispatch functions as a map
`beh : Nat → Nat → LAct` from listener id and payload to an action. -/

structure StoredListener where
  id : Nat
  once : Bool
  priority : Int
deriving DecidableEq

/-- First-match lookup in an association list, modelling `Map.get`.  Keys are
kept unique by construction (`mapSet`/`mapDelete`), so first-match agrees
with the JS `Map`. -/

def mapGet : List (String × α) → String → Option α
  | [], _ => none
  | (k', v) :: rest, k => if k' = k then some v else mapGet rest k

/-- `Map.set`: replace the value at an existing key in place (a JS `Map` key
keeps its original insertion position), or append a new key at the end. -/

def mapSet : List (String × α) → String → α → List (String × α)
  | [], k, v => [(k, v)]
  | (k', v') :: rest, k, v =>
    if k' = k then (k, v) :: rest else (k', v') :: mapSet rest k v

/-- `Map.delete`: remove the entry for a key (keys are unique). -/

def mapDelete : List (String × α) → String → List (String × α)
  | [], _ => []
  | (k', v') :: rest, k => if k' = k then rest else (k', v') :: mapDelete rest k

/-- Remove the first element satisfying `p`, or nothing if none does: the
`indexOf`/`findIndex` + `splice(idx, 1)` idiom of the source. -/

def removeFirst (p : α → Bool) : List α → List α
  | [] => []
  | x :: xs => if p x then xs else x :: removeFirst p xs

/-- One insertion step of the stable descending sort: the incoming element
`x` is placed before the first element with strictly smaller weight, i.e.
after every earlier element whose weight is greater than or equal —
exactly where the stable JS comparator `(a, b) => b.priority - a.priority`
puts a later-arriving element. -/

def insertDesc (weight : α → Int) (x : α) : List α → List α
  | [] => [x]
  | y :: ys =>
    if weight y < weight x then x :: y :: ys else y :: insertDesc weight x ys

/-- Stable sort by descending weight.  ECMAScript requires
`Array.prototype.sort` to be stable, and the stable result of sorting with
the comparator `(a, b) => b.priority - a.priority` (src/index.ts lines 218,
226, 490) is unique: descending priority with ties in original order.  This
left-to-right insertion sort produces exactly that result. -/

def stableSortDesc (weight : α → Int) (l : List α) : List α :=
  l.foldl (fun acc x => insertDesc weight x acc) []

/-- `list.sort((a, b) => b.priority - a.priority)` (src/index.ts lines 226,
490). -/

def sortByPriority (l : List StoredListener) : List StoredListener :=
  stableSortDesc (·.priority) l

/-- `wildcardListeners.sort((a, b) => b.stored.priority - a.stored.priority)`
(src/index.ts line 218). -/

def sortWildByPriority (l : List (String × StoredListener)) :
    List (String × StoredListener) :=
  stableSortDesc (·.2.priority) l

/-- The whole mutable state of an `Emitter` instance (src/index.ts lines
126-144) with its construction defaults. -/

structure EmitterState where
  listeners : List (String × List StoredListener) := []
  wildcardListeners : List (String × StoredListener) := []
  maxListeners : Int := 10
  paused : Bool := false
  buffer : List (String × Nat) := []
  maxBufferSize : Int := 1000
deriving DecidableEq

/-- A freshly constructed emitter. -/

def emitterInit : EmitterState := {}

/-- `event.includes("*")` (src/index.ts line 214): the subscribe-time
classification of a pattern as wildcard. -/

def isWild (event : String) : Bool := event.data.contains '*'

/-- `on(event, listener, options)` (src/index.ts lines 207-234).  The fresh
`StoredListener` object is modelled by the caller-chosen `id`; the
`console.warn` on exceeding `maxListeners` has no state effect and is
omitted. -/

def onOp (s : EmitterState) (event : String) (id : Nat) (once : Bool)
    (priority : Int) : EmitterState :=
  let stored : StoredListener := ⟨id, once, priority⟩
  if isWild event then
    { s with wildcardListeners :=
        sortWildByPriority (s.wildcardListeners ++ [(event, stored)]) }
  else
    let list := (mapGet s.listeners event).getD []
    let list := sortByPriority (list ++ [stored])
    { s with listeners := mapSet s.listeners event list }

/-- `once(event, listener, options)` (src/index.ts lines 270-272):
shorthand for `on` with `once: true`. -/

def onceOp (s : EmitterState) (event : String) (id : Nat) (priority : Int) :
    EmitterState :=
  onOp s event id true priority

/-- The `off()` closure returned by `on()` (src/index.ts lines 236-250).
`isWild event` reproduces the captured `isWild`; the identity test
`w.stored === stored` / `indexOf(stored)` becomes an id comparison. -/

def offOp (s : EmitterState) (event : String) (id : Nat) : EmitterState :=
  if isWild event then
    { s with wildcardListeners :=
        removeFirst (fun w => w.2.id = id) s.wildcardListeners }
  else
    match mapGet s.listeners event with
    | none => s
    | some list =>
      let list := removeFirst (fun x => x.id = id) list
      if list.isEmpty then { s with listeners := mapDelete s.listeners event }
      else { s with listeners := mapSet s.listeners event list }

/-- What a listener callback does when invoked: return normally, throw an
error (errors are numbered), or run an effect on the emitter state (e.g. a
callback that calls `on`/`off`/`clear` on its own emitter). -/

inductive LAct where
  | ret
  | throw (e : Nat)
  | act (f : EmitterState → EmitterState)

/-- `collectListeners(event)` (src/index.ts lines 482-492): exact list for
the event, plus the stored entries of the wildcard pairs whose pattern
matches, concatenated (exact first) and stably re-sorted by descending
priority. -/

def collectListeners (s : EmitterState) (event : String) : List StoredListener :=
  let exact := (mapGet s.listeners event).getD []
  let wild := (s.wildcardListeners.filter
    (fun w => matchWildcard w.1 event)).map (·.2)
  sortByPriority (exact ++ wild)

/-- `pruneOnce(event, fired)` (src/index.ts lines 494-512): drop every
once-flagged fired entry from the exact list of the dispatched event
(deleting the key if the list empties) and from the wildcard registry. -/

def pruneOnce (s : EmitterState) (event : String)
    (fired : List StoredListener) : EmitterState :=
  let onceFired := fired.filter (·.once)
  if onceFired.isEmpty then s
  else
    let s1 :=
      match mapGet s.listeners event with
      | some list =>
        let list := onceFired.foldl
          (fun l (f : StoredListener) =>
            removeFirst (fun x : StoredListener => x.id = f.id) l) list
        if list.isEmpty then { s with listeners := mapDelete s.listeners event }
        else { s with listeners := mapSet s.listeners event list }
      | none => s
    let wl := onceFired.foldl
      (fun wl (f : StoredListener) =>
        removeFirst (fun w : String × StoredListener => w.2.id = f.id) wl)
      s1.wildcardListeners
    { s1 with wildcardListeners := wl }

/-- Result of a dispatch: final state, ordered log of invoked listener ids,
the error propagated out of the call (`some e` iff a listener threw — the
source wraps nothing in try/catch), and the boolean return value. -/

structure DispatchResult where
  state : EmitterState
  log : List Nat
  thrown : Option Nat
  ret : Bool
deriving DecidableEq

/-- The `for (const stored of listeners) stored.fn(payload)` loop inside
`dispatch` (src/index.ts lines 461-463): invoke each collected entry in
order, threading any state effects; a throw aborts the loop immediately and
carries the error out. -/

def runListeners (beh : Nat → Nat → LAct) (payload : Nat) :
    List StoredListener → EmitterState → List Nat →
    EmitterState × List Nat × Option Nat
  | [], s, log => (s, log, none)
  | f :: rest, s, log =>
    match beh f.id payload with
    | .ret => runListeners beh payload rest s (log ++ [f.id])
    | .throw e => (s, log ++ [f.id], some e)
    | .act g => runListeners beh payload rest (g s) (log ++ [f.id])

/-- `dispatch(event, payload)` (src/index.ts lines 456-467).  On an empty
collection it returns `false` with no side effect; otherwise it runs the
snapshot of collected listeners; if one throws, the error propagates and
`pruneOnce` is never reached; otherwise `pruneOnce` runs on the original
snapshot and the call returns `true`. -/

def dispatch (beh : Nat → Nat → LAct) (s : EmitterState) (event : String)
    (payload : Nat) : DispatchResult :=
  let listeners := collectListeners s event
  if listeners.isEmpty then ⟨s, [], none, false⟩
  else
    match runListeners beh payload listeners s [] with
    | (s1, log, some e) => ⟨s1, log, some e, false⟩
    | (s1, log, none) => ⟨pruneOnce s1 event listeners, log, none, true⟩

/-- `dispatchAsync` (src/index.ts lines 469-480) has the identical
structure; the only difference is that each invocation is awaited.  In this
single-threaded sequential model (the emitter has no concurrency, spec §5)
the awaited sequential loop has the same semantics as the synchronous one. -/

def dispatchAsync (beh : Nat → Nat → LAct) (s : EmitterState) (event : String)
    (payload : Nat) : DispatchResult :=
  dispatch beh s event payload

/-- `emit(event, payload)` (src/index.ts lines 290-298): while paused,
append to the buffer if below `maxBufferSize` (otherwise drop silently) and
return `false` without consulting the registry; otherwise dispatch. -/

def emitOp (beh : Nat → Nat → LAct) (s : EmitterState) (event : String)
    (payload : Nat) : DispatchResult :=
  if s.paused then
    if (s.buffer.length : Int) < s.maxBufferSize then
      ⟨{ s with buffer := s.buffer ++ [(event, payload)] }, [], none, false⟩
    else ⟨s, [], none, false⟩
  else dispatch beh s event payload

/-- `emitAsync(event, payload)` (src/index.ts lines 313-321): identical
paused-path, then `dispatchAsync`. -/

def emitAsyncOp (beh : Nat → Nat → LAct) (s : EmitterState) (event : String)
    (payload : Nat) : DispatchResult :=
  if s.paused then
    if (s.buffer.length : Int) < s.maxBufferSize then
      ⟨{ s with buffer := s.buffer ++ [(event, payload)] }, [], none, false⟩
    else ⟨s, [], none, false⟩
  else dispatchAsync beh s event payload

/-- `pause()` (src/index.ts lines 336-339). -/

def pauseOp (s : EmitterState) : EmitterState := { s with paused := true }

/-- Result of `resume()`: final state, concatenated invocation log, and the
error that aborted the replay, if any. -/

structure ResumeResult where
  state : EmitterState
  log : List Nat
  thrown : Option Nat
deriving DecidableEq

/-- The `for (const {event, payload} of pending) this.dispatch(...)` loop of
`resume()` (src/index.ts lines 349-351).  An error thrown by a dispatch
propagates out of `resume`, aborting the remaining replays. -/

def resumeGo (beh : Nat → Nat → LAct) :
    List (String × Nat) → EmitterState → List Nat → ResumeResult
  | [], s, log => ⟨s, log, none⟩
  | (e, p) :: rest, s, log =>
    let r := dispatch beh s e p
    match r.thrown with
    | some err => ⟨r.state, log ++ r.log, some err⟩
    | none => resumeGo beh rest r.state (log ++ r.log)

/-- `resume()` (src/index.ts lines 346-353): clear the paused flag, drain
the buffer (`splice(0)`), and replay every captured entry through `dispatch`
in original enqueue order against the evolving registry. -/

def resumeOp (beh : Nat → Nat → LAct) (s : EmitterState) : ResumeResult :=
  let s1 := { s with paused := false }
  resumeGo beh s1.buffer { s1 with buffer := [] } []

/-- `setMaxListeners(n)` (src/index.ts lines 158-161). -/

def setMaxListenersOp (s : EmitterState) (n : Int) : EmitterState :=
  { s with maxListeners := n }

/-- `setMaxBufferSize(n)` (src/index.ts lines 170-173): only the field is
updated; an already longer buffer is not truncated. -/

def setMaxBufferSizeOp (s : EmitterState) (n : Int) : EmitterState :=
  { s with maxBufferSize := n }

/-- `listenerCount(event)` (src/index.ts lines 380-382). -/

def listenerCountOp (s : EmitterState) (event : String) : Nat :=
  ((mapGet s.listeners event).getD []).length

/-- `clear(event?)` (src/index.ts lines 427-436). -/

def clearOp (s : EmitterState) (event : Option String) : EmitterState :=
  match event with
  | some e =>
    { s with listeners := mapDelete s.listeners e,
             wildcardListeners := s.wildcardListeners.filter (fun w => w.1 ≠ e) }
  | none => { s with listeners := [], wildcardListeners := [] }

/-- `dispose()` (src/index.ts lines 447-452). -/

def disposeOp (s : EmitterState) : EmitterState :=
  { s with listeners := [], wildcardListeners := [], buffer := [],
           paused := false }

/-- Every listener entry held in the exact registry. -/

def exactEntries (s : EmitterState) : List StoredListener :=
  (s.listeners.map (·.2)).flatten

/-- Every listener entry held anywhere in the two registries. -/

def allEntries (s : EmitterState) : List StoredListener :=
  exactEntries s ++ s.wildcardListeners.map (·.2)

/-- The ids of all registered entries. -/

def registryIds (s : EmitterState) : List Nat := (allEntries s).map (·.id)

/-! ## Properties of the stable sort -/

/-- Sorted by descending weight. -/

def SortedDescW (weight : α → Int) (l : List α) : Prop :=
  l.Pairwise (fun a b => weight b ≤ weight a)

/-! ## Behaviour predicates -/

/-- Every callback returns normally (no throw, no re-entrant effect). -/

def Inert (beh : Nat → Nat → LAct) : Prop := ∀ i p, beh i p = LAct.ret

/-- No callback throws. -/

def NoThrow (beh : Nat → Nat → LAct) : Prop := ∀ i p e, beh i p ≠ LAct.throw e

/-- No callback re-enters the emitter (no state effect). -/

def NoAct (beh : Nat → Nat → LAct) : Prop := ∀ i p f, beh i p ≠ LAct.act f

/-! ## Concrete scenarios used by the claims -/

/-- Behaviour where every listener returns normally. -/

def behInert : Nat → Nat → LAct := fun _ _ => LAct.ret

/-- Behaviour where listener 2 throws error 0 and everyone else returns. -/

def behThrow2 : Nat → Nat → LAct :=
  fun i _ => if i = 2 then LAct.throw 0 else LAct.ret

/-- Three listeners on "ping", ids 1, 2, 3, all priority 0. -/

def emitterThree : EmitterState :=
  onOp (onOp (onOp emitterInit "ping" 1 false 0) "ping" 2 false 0) "ping" 3 false 0

/-- Listeners with priorities 1, 10, 5 subscribed in that order. -/

def emitterPr : EmitterState :=
  onOp (onOp (onOp emitterInit "ping" 1 false 1) "ping" 2 false 10) "ping" 3 false 5

/-- Two listeners on "ping": id 1 at priority 1, id 2 at priority 0. -/

def emitterTwo : EmitterState :=
  onOp (onOp emitterInit "ping" 1 false 1) "ping" 2 false 0

/-- Listener 1 unsubscribes listener 2 from inside its own callback. -/

def behOffTwo : Nat → Nat → LAct :=
  fun i _ => if i = 1 then LAct.act (fun s => offOp s "ping" 2) else LAct.ret

/-- Listener 1 subscribes a new listener (id 5, priority 99) from inside its
own callback. -/

def behOnFive : Nat → Nat → LAct :=
  fun i _ => if i = 1 then LAct.act (fun s => onOp s "ping" 5 false 99) else LAct.ret

/-- One once-listener subscribed to "ping" with id 7. -/

def emitterOnce : EmitterState := onceOp emitterInit "ping" 7 0

/-! ## Public operations as a step relation -/

/-- One public operation of the emitter API. -/

inductive POp where
  | on (event : String) (id : Nat) (once : Bool) (priority : Int)
  | off (event : String) (id : Nat)
  | emit (event : String) (payload : Nat)
  | emitAsync (event : String) (payload : Nat)
  | pause
  | resume
  | clear (event : Option String)
  | dispose
  | setMaxListeners (n : Int)
  | setMaxBufferSize (n : Int)
deriving DecidableEq

/-- The state reached by one public operation (log and return value
discarded). -/

def stepOp (beh : Nat → Nat → LAct) (s : EmitterState) : POp → EmitterState
  | .on e id o pr => onOp s e id o pr
  | .off e id => offOp s e id
  | .emit e p => (emitOp beh s e p).state
  | .emitAsync e p => (emitAsyncOp beh s e p).state
  | .pause => pauseOp s
  | .resume => (resumeOp beh s).state
  | .clear o => clearOp s o
  | .dispose => disposeOp s
  | .setMaxListeners n => setMaxListenersOp s n
  | .setMaxBufferSize n => setMaxBufferSizeOp s n

/-- Run a sequence of public operations from a state. -/

def runOps (beh : Nat → Nat → LAct) (s : EmitterState) (ops : List POp) :
    EmitterState :=
  ops.foldl (stepOp beh) s

/-- A paused emitter with `maxBufferSize` set to 0 and an empty buffer. -/

def emitterZero : EmitterState := pauseOp (setMaxBufferSizeOp emitterInit 0)

/-- The single registered entry with id `L.id` sits in the exact list for
`nm`, is not a once-listener, and nothing with that id is wildcard-side. -/

def ExactUnique (nm : String) (L : StoredListener) (st : EmitterState) : Prop :=
  ((mapGet st.listeners nm).getD []).countP
      (fun x => decide (x.id = L.id)) = 1 ∧
  (exactEntries st).countP (fun x => decide (x.id = L.id)) = 1 ∧
  st.wildcardListeners.countP (fun w => decide (w.2.id = L.id)) = 0 ∧
  (∀ x ∈ allEntries st, x.id = L.id → x.once = false)

/-- The single registered entry with id `L.id` is the wildcard pair
`(pat, L)`, is not a once-listener, and nothing with that id is
exact-side. -/

def WildUnique (pat : String) (L : StoredListener) (st : EmitterState) : Prop :=
  st.wildcardListeners.filter (fun w => decide (w.2.id = L.id)) = [(pat, L)] ∧
  (exactEntries st).countP (fun x => decide (x.id = L.id)) = 0 ∧
  (∀ x ∈ allEntries st, x.id = L.id → x.once = false)

/-- Two events buffered while paused, then a listener (id 4) subscribed
while still paused: both buffered events reach it on resume. -/

def emitterReplay : EmitterState :=
  onOp (emitOp behInert (emitOp behInert (pauseOp emitterInit) "t" 1).state
    "t" 2).state "t" 4 false 0

/-- Listeners 1 on "a" and 2 on "b"; "a" then "b" buffered while paused. -/

def emitterOrderAB : EmitterState :=
  (emitOp behInert (emitOp behInert
    (pauseOp (onOp (onOp emitterInit "a" 1 false 0) "b" 2 false 0))
    "a" 10).state "b" 20).state

/-- Listeners 1 on "a" and 2 on "b"; "b" then "a" buffered while paused. -/

def emitterOrderBA : EmitterState :=
  (emitOp behInert (emitOp behInert
    (pauseOp (onOp (onOp emitterInit "a" 1 false 0) "b" 2 false 0))
    "b" 20).state "a" 10).state

/-! ## Fuel irrelevance of the matcher loop -/

/-- Progress index of the backtrack anchor: the `-1` sentinel maps to 0. -/

def mwStarIdx : Option (Nat × Nat) → Nat
  | none => 0
  | some (_, sEi) => sEi + 1

-- Sanity checks against the doc-comment examples and the test file.

example : matchWildcard "user:*" "user:login" = true := by decide

example : matchWildcard "user:*" "user:a:b" = false := by decide

example : matchWildcard "user:**" "user:a:b" = true := by decide

example : matchWildcard "**" "anything:at:all" = true := by decide

example : matchWildcard "user:*" "user.login" = true := by decide

example : matchWildcard "*:login" "user:login" = true := by decide

example : matchWildcard "a:**" "b:x" = false := by decide

theorem insertDesc_perm (weight : α → Int) (x : α) (l : List α) :
    insertDesc weight x l ~ x :: l := by
  induction l with
  | nil => simp [insertDesc]
  | cons y ys ih =>
    simp only [insertDesc]
    split
    · exact List.Perm.refl _
    · exact (List.Perm.cons y ih).trans (List.Perm.swap x y ys)

theorem insertDesc_sorted {weight : α → Int} {l : List α} (x : α)
    (hs : SortedDescW weight l) : SortedDescW weight (insertDesc weight x l) := by
  induction l with
  | nil => simp [insertDesc, SortedDescW]
  | cons y ys ih =>
    simp only [insertDesc]
    rcases List.pairwise_cons.mp hs with ⟨hy, hys⟩
    split
    · rename_i hlt
      refine List.Pairwise.cons ?_ hs
      intro z hz
      rcases List.mem_cons.mp hz with rfl | hz
      · exact Int.le_of_lt hlt
      · exact le_trans (hy z hz) (Int.le_of_lt hlt)
    · rename_i hnlt
      refine List.Pairwise.cons ?_ (ih hys)
      intro z hz
      rcases List.mem_cons.mp ((insertDesc_perm weight x ys).mem_iff.mp hz) with rfl | hz
      · exact Int.not_lt.mp hnlt
      · exact hy z hz

theorem insertDesc_filter {weight : α → Int} {l : List α} (x : α) (k : Int)
    (hs : SortedDescW weight l) :
    (insertDesc weight x l).filter (fun y => weight y = k) =
      l.filter (fun y => weight y = k) ++ (if weight x = k then [x] else []) := by
  induction l with
  | nil => by_cases h : weight x = k <;> simp [insertDesc, h]
  | cons y ys ih =>
    rcases List.pairwise_cons.mp hs with ⟨hy, hys⟩
    simp only [insertDesc]
    split
    · rename_i hlt
      by_cases hxk : weight x = k
      · have hyk : ¬ weight y = k := by omega
        have hysnil : ys.filter (fun z => decide (weight z = k)) = [] := by
          apply List.filter_eq_nil_iff.mpr
          intro z hz
          have hzy : weight z ≤ weight y := hy z hz
          simp only [decide_eq_true_eq]
          omega
        simp [List.filter_cons, hxk, hyk, hysnil]
      · simp [List.filter_cons, hxk]
    · rename_i hnlt
      by_cases hyk : weight y = k <;> simp [List.filter_cons, hyk, ih hys]

theorem stableSortDesc_go_perm (weight : α → Int) (l acc : List α) :
    l.foldl (fun a z => insertDesc weight z a) acc ~ acc ++ l := by
  induction l generalizing acc with
  | nil => simp
  | cons x xs ih =>
    have h1 : (x :: xs).foldl (fun a z => insertDesc weight z a) acc
        = xs.foldl (fun a z => insertDesc weight z a) (insertDesc weight x acc) := rfl
    rw [h1]
    refine ((ih _).trans ?_)
    refine (((insertDesc_perm weight x acc).append_right xs).trans ?_)
    exact List.perm_middle.symm

theorem stableSortDesc_perm (weight : α → Int) (l : List α) :
    stableSortDesc weight l ~ l := by
  simpa [stableSortDesc] using stableSortDesc_go_perm weight l []

theorem stableSortDesc_go_sorted (weight : α → Int) (l : List α)
    (acc : List α) (hacc : SortedDescW weight acc) :
    SortedDescW weight (l.foldl (fun a z => insertDesc weight z a) acc) := by
  induction l generalizing acc with
  | nil => exact hacc
  | cons x xs ih => exact ih _ (insertDesc_sorted x hacc)

theorem stableSortDesc_sorted (weight : α → Int) (l : List α) :
    SortedDescW weight (stableSortDesc weight l) :=
  stableSortDesc_go_sorted weight l [] (by simp [SortedDescW])

theorem stableSortDesc_go_filter (weight : α → Int) (l : List α) (k : Int)
    (acc : List α) (hacc : SortedDescW weight acc) :
    (l.foldl (fun a z => insertDesc weight z a) acc).filter
        (fun y => weight y = k) =
      acc.filter (fun y => weight y = k) ++ l.filter (fun y => weight y = k) := by
  induction l generalizing acc with
  | nil => simp
  | cons x xs ih =>
    have h1 : (x :: xs).foldl (fun a z => insertDesc weight z a) acc
        = xs.foldl (fun a z => insertDesc weight z a) (insertDesc weight x acc) := rfl
    rw [h1, ih _ (insertDesc_sorted x hacc), insertDesc_filter x k hacc]
    by_cases hxk : weight x = k <;> simp [List.filter_cons, hxk]

/-- Stability of the sort, stated through priority classes: for every weight
value `k`, the elements of weight `k` appear in the sorted output exactly as
they appear in the input. -/

theorem stableSortDesc_filter (weight : α → Int) (l : List α) (k : Int) :
    (stableSortDesc weight l).filter (fun y => weight y = k) =
      l.filter (fun y => weight y = k) := by
  simpa [stableSortDesc] using
    stableSortDesc_go_filter weight l k [] (by simp [SortedDescW])

theorem Inert.noThrow {beh : Nat → Nat → LAct} (h : Inert beh) : NoThrow beh := by
  intro i p e hc
  rw [h i p] at hc
  exact LAct.noConfusion hc

theorem Inert.noAct {beh : Nat → Nat → LAct} (h : Inert beh) : NoAct beh := by
  intro i p f hc
  rw [h i p] at hc
  exact LAct.noConfusion hc

/-! ## Lemmas about the dispatch loop -/

theorem runListeners_nothrow {beh : Nat → Nat → LAct} {payload : Nat}
    (hnt : NoThrow beh) (l : List StoredListener) (s : EmitterState)
    (log : List Nat) :
    (runListeners beh payload l s log).2.1 = log ++ l.map (·.id) ∧
    (runListeners beh payload l s log).2.2 = none := by
  induction l generalizing s log with
  | nil => simp [runListeners]
  | cons f fs ih =>
    cases hb : beh f.id payload with
    | ret =>
      have h := ih s (log ++ [f.id])
      simpa [runListeners, hb] using h
    | throw e => exact absurd hb (hnt _ _ _)
    | act g =>
      have h := ih (g s) (log ++ [f.id])
      simpa [runListeners, hb] using h

theorem runListeners_inert {beh : Nat → Nat → LAct} {payload : Nat}
    (hin : Inert beh) (l : List StoredListener) (s : EmitterState)
    (log : List Nat) :
    runListeners beh payload l s log = (s, log ++ l.map (·.id), none) := by
  induction l generalizing log with
  | nil => simp [runListeners]
  | cons f fs ih => simp [runListeners, hin f.id payload, ih]

theorem runListeners_noact_state {beh : Nat → Nat → LAct} {payload : Nat}
    (hna : NoAct beh) (l : List StoredListener) (s : EmitterState)
    (log : List Nat) :
    (runListeners beh payload l s log).1 = s := by
  induction l generalizing log with
  | nil => simp [runListeners]
  | cons f fs ih =>
    cases hb : beh f.id payload with
    | ret => simpa [runListeners, hb] using ih (log ++ [f.id])
    | throw e => simp [runListeners, hb]
    | act g => exact absurd hb (hna _ _ _)

theorem runListeners_noact_thrown {beh : Nat → Nat → LAct} {payload : Nat}
    (hna : NoAct beh) (l : List StoredListener) (s : EmitterState)
    (log : List Nat) (err : Nat)
    (hth : (runListeners beh payload l s log).2.2 = some err) :
    ∃ k, ∃ hk : k < l.length,
      beh (l.get ⟨k, hk⟩).id payload = LAct.throw err ∧
      (runListeners beh payload l s log).2.1 =
        log ++ (l.map (·.id)).take (k + 1) := by
  induction l generalizing s log with
  | nil => simp [runListeners] at hth
  | cons f fs ih =>
    cases hb : beh f.id payload with
    | ret =>
      rw [show runListeners beh payload (f :: fs) s log =
        runListeners beh payload fs s (log ++ [f.id]) by simp [runListeners, hb]] at hth ⊢
      rcases ih s (log ++ [f.id]) hth with ⟨k, hk, hbk, hlog⟩
      refine ⟨k + 1, by simpa using Nat.succ_lt_succ hk, ?_, ?_⟩
      · simpa using hbk
      · simpa [List.take_succ_cons] using hlog
    | throw e =>
      have hres : runListeners beh payload (f :: fs) s log =
          (s, log ++ [f.id], some e) := by simp [runListeners, hb]
      rw [hres] at hth ⊢
      simp only [Option.some.injEq] at hth
      subst hth
      exact ⟨0, Nat.succ_pos _, by simpa using hb, by simp⟩
    | act g => exact absurd hb (hna _ _ _)

/-! ## Lemmas about `collectListeners` -/

theorem collectListeners_perm (s : EmitterState) (e : String) :
    collectListeners s e ~
      ((mapGet s.listeners e).getD [] ++
        (s.wildcardListeners.filter (fun w => matchWildcard w.1 e)).map (·.2)) := by
  simpa [collectListeners, sortByPriority] using
    stableSortDesc_perm (·.priority)
      ((mapGet s.listeners e).getD [] ++
        (s.wildcardListeners.filter (fun w => matchWildcard w.1 e)).map (·.2))

theorem collectListeners_sorted (s : EmitterState) (e : String) :
    SortedDescW (·.priority) (collectListeners s e) := by
  simpa [collectListeners, sortByPriority] using
    stableSortDesc_sorted (StoredListener.priority)
      ((mapGet s.listeners e).getD [] ++
        (s.wildcardListeners.filter (fun w => matchWildcard w.1 e)).map (·.2))

theorem collectListeners_filter (s : EmitterState) (e : String) (k : Int) :
    (collectListeners s e).filter (fun x => x.priority = k) =
      ((mapGet s.listeners e).getD [] ++
        (s.wildcardListeners.filter (fun w => matchWildcard w.1 e)).map (·.2)).filter
        (fun x => x.priority = k) := by
  simpa [collectListeners, sortByPriority] using
    stableSortDesc_filter (StoredListener.priority)
      ((mapGet s.listeners e).getD [] ++
        (s.wildcardListeners.filter (fun w => matchWildcard w.1 e)).map (·.2)) k

theorem mapGet_mem_values {m : List (String × α)} {k : String} {v : α}
    (h : mapGet m k = some v) : v ∈ m.map (·.2) := by
  induction m with
  | nil => simp [mapGet] at h
  | cons kv rest ih =>
    rcases kv with ⟨k', v'⟩
    by_cases hk : k' = k
    · simp [mapGet, hk] at h
      simp [h]
    · simp only [mapGet, hk, if_false] at h
      simp [ih h]

theorem collect_mem_allEntries {s : EmitterState} {e : String}
    {x : StoredListener} (hx : x ∈ collectListeners s e) :
    x ∈ allEntries s := by
  unfold allEntries exactEntries
  apply List.mem_append.mpr
  rcases List.mem_append.mp ((collectListeners_perm s e).mem_iff.mp hx) with hx | hx
  · left
    cases hm : mapGet s.listeners e with
    | none => rw [hm] at hx; simp at hx
    | some list =>
      rw [hm] at hx
      simp only [Option.getD_some] at hx
      exact List.mem_flatten.mpr ⟨list, mapGet_mem_values hm, hx⟩
  · right
    rcases List.mem_map.mp hx with ⟨w, hw, rfl⟩
    exact List.mem_map.mpr ⟨w, List.mem_of_mem_filter hw, rfl⟩

/-! ## Lemmas about `dispatch` -/

theorem dispatch_def (beh : Nat → Nat → LAct) (s : EmitterState) (e : String)
    (p : Nat) :
    dispatch beh s e p =
      if (collectListeners s e).isEmpty then ⟨s, [], none, false⟩
      else
        match runListeners beh p (collectListeners s e) s [] with
        | (s1, log, some err) => ⟨s1, log, some err, false⟩
        | (s1, log, none) =>
          ⟨pruneOnce s1 e (collectListeners s e), log, none, true⟩ := rfl

theorem dispatch_log_nothrow {beh : Nat → Nat → LAct} {s : EmitterState}
    {e : String} {p : Nat} (hnt : NoThrow beh) :
    (dispatch beh s e p).log = (collectListeners s e).map (·.id) ∧
    (dispatch beh s e p).thrown = none := by
  rw [dispatch_def]
  split
  · rename_i h
    rw [List.isEmpty_iff.mp h]
    simp
  · rcases hr : runListeners beh p (collectListeners s e) s [] with ⟨s1, log1, th1⟩
    obtain ⟨hlog, hth⟩ := runListeners_nothrow hnt (collectListeners s e) s []
    rw [hr] at hlog hth
    simp only at hlog hth
    subst hth
    simp [hr, hlog]

theorem dispatch_inert {beh : Nat → Nat → LAct} {s : EmitterState}
    {e : String} {p : Nat} (hin : Inert beh) :
    (dispatch beh s e p).state = pruneOnce s e (collectListeners s e) ∧
    (dispatch beh s e p).log = (collectListeners s e).map (·.id) ∧
    (dispatch beh s e p).thrown = none := by
  rw [dispatch_def]
  split
  · rename_i h
    rw [List.isEmpty_iff.mp h]
    simp [pruneOnce]
  · have hr := @runListeners_inert beh p hin (collectListeners s e) s []
    simp [hr]

theorem dispatch_noact_thrown {beh : Nat → Nat → LAct} {s : EmitterState}
    {e : String} {p : Nat} {err : Nat} (hna : NoAct beh)
    (hth : (dispatch beh s e p).thrown = some err) :
    (dispatch beh s e p).state = s ∧
    ∃ k, ∃ hk : k < (collectListeners s e).length,
      beh ((collectListeners s e).get ⟨k, hk⟩).id p = LAct.throw err ∧
      (dispatch beh s e p).log = ((collectListeners s e).map (·.id)).take (k + 1) := by
  rw [dispatch_def] at hth ⊢
  split at hth
  · simp at hth
  · rename_i hne
    rcases hr : runListeners beh p (collectListeners s e) s [] with ⟨s1, log1, th1⟩
    have hst := @runListeners_noact_state beh p hna (collectListeners s e) s []
    rw [hr] at hst
    simp only at hst
    rw [hr] at hth
    cases th1 with
    | none => simp at hth
    | some e' =>
      simp only [Option.some.injEq] at hth
      subst hth
      have hth2 : (runListeners beh p (collectListeners s e) s []).2.2 = some e' := by
        rw [hr]
      rcases runListeners_noact_thrown hna (collectListeners s e) s [] e' hth2
        with ⟨k, hk, hbk, hlog⟩
      rw [hr] at hlog
      simp only at hlog
      refine ⟨?_, k, hk, hbk, ?_⟩
      · simp [hne, hst]
      · simp [hne, hlog]

theorem dispatch_log_subset {beh : Nat → Nat → LAct} {s : EmitterState}
    {e : String} {p : Nat} (hnt : NoThrow beh) :
    ∀ n ∈ (dispatch beh s e p).log, n ∈ registryIds s := by
  intro n hn
  rw [(dispatch_log_nothrow hnt).1] at hn
  rcases List.mem_map.mp hn with ⟨x, hx, rfl⟩
  exact List.mem_map.mpr ⟨x, collect_mem_allEntries hx, rfl⟩

/-! ## Counting and sublist lemmas for the registries -/

theorem removeFirst_sublist (p : α → Bool) (l : List α) : removeFirst p l <+ l := by
  induction l with
  | nil => simp [removeFirst]
  | cons x xs ih =>
    simp only [removeFirst]
    split
    · exact List.sublist_cons_self x xs
    · exact ih.cons₂ x

theorem foldl_removeFirst_sublist (step : β → α → Bool) (fs : List β) (l : List α) :
    fs.foldl (fun acc f => removeFirst (step f) acc) l <+ l := by
  induction fs generalizing l with
  | nil => exact List.Sublist.refl l
  | cons f fs ih =>
    exact (ih (removeFirst (step f) l)).trans (removeFirst_sublist _ l)

theorem removeFirst_countP_disj {pr q : α → Bool}
    (h : ∀ x, pr x = true → q x = false) (l : List α) :
    (removeFirst pr l).countP q = l.countP q := by
  induction l with
  | nil => rfl
  | cons x xs ih =>
    simp only [removeFirst]
    split
    · rename_i hx
      rw [List.countP_cons]
      simp [h x hx]
    · simp [List.countP_cons, ih]

theorem removeFirst_filter_disj {pr q : α → Bool}
    (h : ∀ x, pr x = true → q x = false) (l : List α) :
    (removeFirst pr l).filter q = l.filter q := by
  induction l with
  | nil => rfl
  | cons x xs ih =>
    simp only [removeFirst]
    split
    · rename_i hx
      simp [List.filter_cons, h x hx]
    · by_cases hq : q x <;> simp [List.filter_cons, hq, ih]

theorem removeFirst_countP_self {q : α → Bool} (l : List α) :
    0 < l.countP q → (removeFirst q l).countP q + 1 = l.countP q := by
  induction l with
  | nil => intro h; simp at h
  | cons x xs ih =>
    intro h
    simp only [removeFirst]
    split
    · rename_i hx
      simp [List.countP_cons, hx]
    · rename_i hx
      have hx' : q x = false := by
        cases hqx : q x
        · rfl
        · exact absurd hqx hx
      have h' : 0 < xs.countP q := by
        rw [List.countP_cons, hx'] at h
        simpa using h
      have hih := ih h'
      rw [List.countP_cons, List.countP_cons, hx']
      simp only [Bool.false_eq_true, if_false]
      omega

theorem foldl_removeFirst_countP_disj {q : α → Bool} {step : β → α → Bool}
    (fs : List β) (l : List α)
    (h : ∀ f ∈ fs, ∀ x, step f x = true → q x = false) :
    (fs.foldl (fun acc f => removeFirst (step f) acc) l).countP q =
      l.countP q := by
  induction fs generalizing l with
  | nil => rfl
  | cons f fs ih =>
    have h1 := removeFirst_countP_disj (h f (List.mem_cons_self f fs)) l
    have h2 := ih (removeFirst (step f) l)
      (fun g hg => h g (List.mem_cons_of_mem f hg))
    simpa [h1] using h2

theorem foldl_removeFirst_filter_disj {q : α → Bool} {step : β → α → Bool}
    (fs : List β) (l : List α)
    (h : ∀ f ∈ fs, ∀ x, step f x = true → q x = false) :
    (fs.foldl (fun acc f => removeFirst (step f) acc) l).filter q =
      l.filter q := by
  induction fs generalizing l with
  | nil => rfl
  | cons f fs ih =>
    have h1 := removeFirst_filter_disj (h f (List.mem_cons_self f fs)) l
    have h2 := ih (removeFirst (step f) l)
      (fun g hg => h g (List.mem_cons_of_mem f hg))
    simpa [h1] using h2

theorem foldl_removeFirst_countP_zero {q : α → Bool} {step : β → α → Bool}
    (fs : List β) :
    ∀ l : List α, l.countP q = 1 →
    (∀ f ∈ fs, step f = q ∨ (∀ x, step f x = true → q x = false)) →
    (∃ f ∈ fs, step f = q) →
    (fs.foldl (fun acc f => removeFirst (step f) acc) l).countP q = 0 := by
  induction fs with
  | nil =>
    intro l _ _ hex
    simp at hex
  | cons f0 fs ih =>
    intro l hcount hsplit hex
    rcases hsplit f0 (List.mem_cons_self f0 fs) with heq | hdisj
    · have h0 : (removeFirst (step f0) l).countP q = 0 := by
        rw [heq]
        have hrem : (removeFirst q l).countP q + 1 = l.countP q :=
          removeFirst_countP_self l (by omega)
        omega
      have hsub := foldl_removeFirst_sublist step fs (removeFirst (step f0) l)
      have hle := hsub.countP_le q
      simp only [List.foldl_cons]
      omega
    · have hpres : (removeFirst (step f0) l).countP q = 1 := by
        rw [removeFirst_countP_disj hdisj]
        exact hcount
      rcases hex with ⟨f, hf, hfq⟩
      rcases List.mem_cons.mp hf with rfl | hf
      · exfalso
        have hzero : l.countP q = 0 := by
          apply List.countP_eq_zero.mpr
          intro x hx
          intro hqx
          have hq0 := hdisj x (by rw [← hfq] at hqx; exact hqx)
          rw [hq0] at hqx
          exact Bool.noConfusion hqx
        omega
      · simp only [List.foldl_cons]
        exact ih (removeFirst (step f0) l) hpres
          (fun g hg => hsplit g (List.mem_cons_of_mem f0 hg)) ⟨f, hf, hfq⟩

/-! ## Association-list lemmas -/

theorem mapGet_mapSet_self (m : List (String × α)) (k : String) (v : α) :
    mapGet (mapSet m k v) k = some v := by
  induction m with
  | nil => simp [mapSet, mapGet]
  | cons kv rest ih =>
    rcases kv with ⟨k0, v0⟩
    by_cases hk : k0 = k
    · simp [mapSet, mapGet, hk]
    · simp [mapSet, mapGet, hk, ih]

theorem mapGet_mapSet_ne (m : List (String × α)) (k k' : String) (v : α)
    (h : k ≠ k') : mapGet (mapSet m k v) k' = mapGet m k' := by
  induction m with
  | nil => simp [mapSet, mapGet, h]
  | cons kv rest ih =>
    rcases kv with ⟨k0, v0⟩
    by_cases hk : k0 = k
    · subst hk
      simp [mapSet, mapGet, h]
    · by_cases hk' : k0 = k' <;> simp [mapSet, mapGet, hk, hk', ih, Ne.symm h]

theorem mapGet_mapDelete_ne (m : List (String × α)) (k k' : String)
    (h : k ≠ k') : mapGet (mapDelete m k) k' = mapGet m k' := by
  induction m with
  | nil => simp [mapDelete, mapGet]
  | cons kv rest ih =>
    rcases kv with ⟨k0, v0⟩
    by_cases hk : k0 = k
    · subst hk
      simp [mapDelete, mapGet, h]
    · by_cases hk' : k0 = k' <;> simp [mapDelete, mapGet, hk, hk', ih, Ne.symm h]

theorem countP_flatten_mapSet (q : α → Bool) (m : List (String × List α))
    (k : String) (v : List α) :
    (((mapSet m k v).map (·.2)).flatten).countP q +
        ((mapGet m k).getD []).countP q =
      ((m.map (·.2)).flatten).countP q + v.countP q := by
  induction m with
  | nil => simp [mapSet, mapGet]
  | cons kv rest ih =>
    rcases kv with ⟨k0, w0⟩
    by_cases hk : k0 = k
    · simp [mapSet, mapGet, hk, List.countP_append]
      omega
    · simp only [mapSet, mapGet, hk, if_false, List.map_cons, List.flatten_cons,
        List.countP_append]
      omega

theorem countP_flatten_mapDelete (q : α → Bool) (m : List (String × List α))
    (k : String) :
    (((mapDelete m k).map (·.2)).flatten).countP q +
        ((mapGet m k).getD []).countP q =
      ((m.map (·.2)).flatten).countP q := by
  induction m with
  | nil => simp [mapDelete, mapGet]
  | cons kv rest ih =>
    rcases kv with ⟨k0, w0⟩
    by_cases hk : k0 = k
    · simp [mapDelete, mapGet, hk, List.countP_append]
      omega
    · simp only [mapDelete, mapGet, hk, if_false, List.map_cons,
        List.flatten_cons, List.countP_append]
      omega

theorem flatten_mapSet_sublist {m : List (String × List α)} {k : String}
    {v w : List α} (hm : mapGet m k = some w) (hv : v <+ w) :
    ((mapSet m k v).map (·.2)).flatten <+ (m.map (·.2)).flatten := by
  induction m with
  | nil => simp [mapGet] at hm
  | cons kv rest ih =>
    rcases kv with ⟨k0, w0⟩
    by_cases hk : k0 = k
    · simp only [mapGet, hk, if_true, Option.some.injEq] at hm
      subst hm
      simp only [mapSet, hk, if_true, List.map_cons, List.flatten_cons]
      exact hv.append_right _
    · simp only [mapGet, hk, if_false] at hm
      simp only [mapSet, hk, if_false, List.map_cons, List.flatten_cons]
      exact (ih hm).append_left w0

theorem flatten_mapDelete_sublist (m : List (String × List α)) (k : String) :
    ((mapDelete m k).map (·.2)).flatten <+ (m.map (·.2)).flatten := by
  induction m with
  | nil => simp [mapDelete]
  | cons kv rest ih =>
    rcases kv with ⟨k0, w0⟩
    by_cases hk : k0 = k
    · simp only [mapDelete, hk, if_true, List.map_cons, List.flatten_cons]
      exact List.sublist_append_right w0 _
    · simp only [mapDelete, hk, if_false, List.map_cons, List.flatten_cons]
      exact ih.append_left w0

/-! ## Lemmas about `pruneOnce` -/

theorem pruneOnce_fields (s : EmitterState) (e : String)
    (fired : List StoredListener) :
    (pruneOnce s e fired).buffer = s.buffer ∧
    (pruneOnce s e fired).paused = s.paused ∧
    (pruneOnce s e fired).maxBufferSize = s.maxBufferSize ∧
    (pruneOnce s e fired).maxListeners = s.maxListeners := by
  by_cases h1 : (fired.filter (·.once)).isEmpty = true
  · simp [pruneOnce, h1]
  · cases hm : mapGet s.listeners e with
    | none => simp [pruneOnce, h1, hm]
    | some list =>
      by_cases h2 : ((fired.filter (·.once)).foldl
          (fun l (f : StoredListener) =>
            removeFirst (fun x : StoredListener => x.id = f.id) l)
          list).isEmpty = true <;>
        simp [pruneOnce, h1, hm, h2]

theorem pruneOnce_allEntries_sublist (s : EmitterState) (e : String)
    (fired : List StoredListener) :
    allEntries (pruneOnce s e fired) <+ allEntries s := by
  by_cases h1 : (fired.filter (·.once)).isEmpty = true
  · have hp : pruneOnce s e fired = s := by simp [pruneOnce, h1]
    rw [hp]
  · have hw : (pruneOnce s e fired).wildcardListeners =
        (fired.filter (·.once)).foldl
          (fun wl (f : StoredListener) =>
            removeFirst (fun w : String × StoredListener => w.2.id = f.id) wl)
          s.wildcardListeners := by
      cases hm : mapGet s.listeners e with
      | none => simp [pruneOnce, h1, hm]
      | some list =>
        by_cases h2 : ((fired.filter (·.once)).foldl
            (fun l (f : StoredListener) =>
              removeFirst (fun x : StoredListener => x.id = f.id) l)
            list).isEmpty = true <;>
          simp [pruneOnce, h1, hm, h2]
    have hexact : exactEntries (pruneOnce s e fired) <+ exactEntries s := by
      unfold exactEntries
      cases hm : mapGet s.listeners e with
      | none =>
        have hl : (pruneOnce s e fired).listeners = s.listeners := by
          simp [pruneOnce, h1, hm]
        rw [hl]
      | some list =>
        by_cases h2 : ((fired.filter (·.once)).foldl
            (fun l (f : StoredListener) =>
              removeFirst (fun x : StoredListener => x.id = f.id) l)
            list).isEmpty = true
        · have hl : (pruneOnce s e fired).listeners =
              mapDelete s.listeners e := by
            simp [pruneOnce, h1, hm, h2]
          rw [hl]
          exact flatten_mapDelete_sublist _ _
        · have hl : (pruneOnce s e fired).listeners =
              mapSet s.listeners e
                ((fired.filter (·.once)).foldl
                  (fun l (f : StoredListener) =>
                    removeFirst (fun x : StoredListener => x.id = f.id) l)
                  list) := by
            simp [pruneOnce, h1, hm, h2]
          rw [hl]
          exact flatten_mapSet_sublist hm (foldl_removeFirst_sublist _ _ _)
    unfold allEntries
    rw [hw]
    exact hexact.append ((foldl_removeFirst_sublist _ _ _).map _)

theorem pruneOnce_registryIds_sub {s : EmitterState} {e : String}
    {fired : List StoredListener} {n : Nat}
    (hn : n ∈ registryIds (pruneOnce s e fired)) : n ∈ registryIds s := by
  unfold registryIds at hn ⊢
  rcases List.mem_map.mp hn with ⟨x, hx, rfl⟩
  exact List.mem_map.mpr
    ⟨x, (pruneOnce_allEntries_sublist s e fired).subset hx, rfl⟩

theorem dispatch_registryIds_sub {beh : Nat → Nat → LAct} {s : EmitterState}
    {e : String} {p : Nat} {n : Nat} (hin : Inert beh)
    (hn : n ∈ registryIds (dispatch beh s e p).state) : n ∈ registryIds s := by
  rw [(dispatch_inert hin).1] at hn
  exact pruneOnce_registryIds_sub hn

/-! ## The matcher on wildcard-free patterns -/

theorem mwGo_literal (pp ee : List String) :
    ∀ fuel pi ei, ee.length - ei < fuel →
    (∀ s ∈ pp.drop pi, ¬(s = "*" ∨ s = "**")) →
    (mwGo pp ee fuel pi ei none = true ↔ pp.drop pi = ee.drop ei) := by
  intro fuel
  induction fuel with
  | zero =>
    intro pi ei hf
    omega
  | succ f ih =>
    intro pi ei hf htok
    by_cases he : ei < ee.length
    · have h1 : ¬(pi < pp.length ∧ pp.getD pi "" = "**") := by
        rintro ⟨hpi, hstar⟩
        have hmem : pp.getD pi "" ∈ pp.drop pi := by
          rw [List.getD_eq_getElem pp "" hpi, List.drop_eq_getElem_cons hpi]
          exact List.mem_cons_self _ _
        exact (htok _ hmem) (Or.inr hstar)
      by_cases h2 : pi < pp.length ∧
          (pp.getD pi "" = "*" ∨ pp.getD pi "" = ee.getD ei "")
      · rcases h2 with ⟨hpi, hor⟩
        have hmem : pp.getD pi "" ∈ pp.drop pi := by
          rw [List.getD_eq_getElem pp "" hpi, List.drop_eq_getElem_cons hpi]
          exact List.mem_cons_self _ _
        have heq : pp.getD pi "" = ee.getD ei "" := by
          rcases hor with hstar | heq
          · exact absurd (Or.inl hstar) (htok _ hmem)
          · exact heq
        have hstep : mwGo pp ee (f+1) pi ei none =
            mwGo pp ee f (pi+1) (ei+1) none := by
          simp only [mwGo]
          rw [if_pos he, if_neg h1, if_pos ⟨hpi, hor⟩]
        have htok' : ∀ s ∈ pp.drop (pi+1), ¬(s = "*" ∨ s = "**") := by
          intro s hs
          apply htok
          rw [List.drop_eq_getElem_cons hpi]
          exact List.mem_cons_of_mem _ hs
        rw [hstep, ih (pi+1) (ei+1) (by omega) htok']
        rw [List.drop_eq_getElem_cons hpi, List.drop_eq_getElem_cons he]
        have hheads : pp[pi] = ee[ei] := by
          rw [← List.getD_eq_getElem pp "" hpi, ← List.getD_eq_getElem ee "" he]
          exact heq
        constructor
        · intro ht
          rw [hheads, ht]
        · intro hc
          exact ((List.cons.injEq _ _ _ _).mp hc).2
      · have hres : mwGo pp ee (f+1) pi ei none = false := by
          simp only [mwGo]
          rw [if_pos he, if_neg h1, if_neg h2]
        rw [hres]
        simp only [Bool.false_eq_true, false_iff]
        intro hcontra
        by_cases hpi : pi < pp.length
        · apply h2
          refine ⟨hpi, Or.inr ?_⟩
          rw [List.drop_eq_getElem_cons hpi, List.drop_eq_getElem_cons he]
            at hcontra
          simp only [List.cons.injEq] at hcontra
          rw [List.getD_eq_getElem pp "" hpi, List.getD_eq_getElem ee "" he]
          exact hcontra.1
        · have hnil : pp.drop pi = [] := List.drop_eq_nil_of_le (by omega)
          rw [hnil] at hcontra
          have hlen := List.drop_eq_nil_iff.mp hcontra.symm
          omega
    · have hres : mwGo pp ee (f+1) pi ei none =
          (pp.drop pi).all (fun s => s == "**") := by
        simp [mwGo, he]
      rw [hres]
      have hee : ee.drop ei = [] := List.drop_eq_nil_of_le (by omega)
      rw [hee]
      cases hdp : pp.drop pi with
      | nil => simp
      | cons s rest =>
        have hmem : s ∈ pp.drop pi := by
          rw [hdp]
          exact List.mem_cons_self _ _
        have hs := htok s hmem
        constructor
        · intro hall
          exfalso
          simp only [List.all_cons, Bool.and_eq_true, beq_iff_eq] at hall
          exact hs (Or.inr hall.1)
        · intro hcontra
          exact absurd hcontra (by simp)

/-- On a pattern whose segments contain no wildcard token, `matchWildcard`
decides equality of the two segment sequences. -/

theorem matchWildcard_no_tokens (p e : String)
    (h : ∀ s ∈ splitSeg p, ¬(s = "*" ∨ s = "**")) :
    (matchWildcard p e = true ↔ splitSeg p = splitSeg e) := by
  have hdef : matchWildcard p e =
      mwGo (splitSeg p) (splitSeg e)
        (((splitSeg e).length + 2) * ((splitSeg p).length + 2)) 0 0 none := rfl
  have hfuel : (splitSeg e).length - 0 <
      (((splitSeg e).length + 2) * ((splitSeg p).length + 2)) := by
    have h1 : (splitSeg e).length + 2 ≤
        ((splitSeg e).length + 2) * ((splitSeg p).length + 2) := by
      have h2 : 1 ≤ (splitSeg p).length + 2 := by omega
      calc (splitSeg e).length + 2 = ((splitSeg e).length + 2) * 1 := by omega
        _ ≤ ((splitSeg e).length + 2) * ((splitSeg p).length + 2) :=
            Nat.mul_le_mul_left _ h2
    omega
  have hgo := mwGo_literal (splitSeg p) (splitSeg e) _ 0 0 hfuel
    (by simpa using h)
  rw [hdef, hgo]
  simp

theorem behInert_inert : Inert behInert := fun _ _ => rfl

theorem behInert_noThrow : NoThrow behInert := behInert_inert.noThrow

theorem behThrow2_noAct : NoAct behThrow2 := by
  intro i p g hc
  by_cases h2 : i = 2 <;> simp [behThrow2, h2] at hc

theorem behOffTwo_noThrow : NoThrow behOffTwo := by
  intro i p e hc
  by_cases h1 : i = 1 <;> simp [behOffTwo, h1] at hc

theorem behOnFive_noThrow : NoThrow behOnFive := by
  intro i p e hc
  by_cases h1 : i = 1 <;> simp [behOnFive, h1] at hc

/-! ## Claims -/

/-- C3: the spec and the matcher's own documentation (src/index.ts line 54
"`**` matches one or more segments", likewise the README) require
`matchWildcard("a:**", "a")` to be false — the `**` should need at least one
event segment.  The code disagrees: after the lone event segment is consumed
the trailing-`**` loop (src/index.ts lines 95-97) skips the `**` and the
match succeeds, so the trailing `**` in fact matches zero segments.  This
theorem evaluates the code at the failing input. -/

theorem claimC3 : matchWildcard "a:**" "a" = true := by decide

/-- C2 is false as stated: `"a:b"` contains no wildcard token, yet it
matches the differently-delimited name `"a.b"` although the two are not
equal as strings — `:` and `.` are interchangeable (src/index.ts line 66,
confirmed by the "mixed separators" test). -/

theorem claimC2_counterexample :
    (∀ s ∈ splitSeg "a:b", ¬(s = "*" ∨ s = "**")) ∧
    matchWildcard "a:b" "a.b" = true ∧ "a:b" ≠ "a.b" :=
  ⟨by decide, by decide, by decide⟩

/-- C2 (amended): for every pattern containing no wildcard token,
`matchWildcard p e` returns true iff `p` and `e` split into the same
segment sequence, i.e. they are equal up to the interchangeable delimiters
`:` and `.`. -/

theorem claimC2 (p e : String)
    (h : ∀ s ∈ splitSeg p, ¬(s = "*" ∨ s = "**")) :
    matchWildcard p e = true ↔ splitSeg p = splitSeg e :=
  matchWildcard_no_tokens p e h

theorem claimC2_witness :
    (∀ s ∈ splitSeg "user:login", ¬(s = "*" ∨ s = "**")) ∧
    (matchWildcard "user:login" "user.login" = true ↔
      splitSeg "user:login" = splitSeg "user.login") :=
  ⟨by decide, claimC2 "user:login" "user.login" (by decide)⟩

/-- C1: the spec and the repository's own tests (tests/emitter.test.ts,
"onError" suite) require a single construction option `onError` whose
presence isolates a throwing listener and reports `(error, eventName)` to
the sink while the remaining collected listeners still run.  The shipped
class has no constructor options and no error field (src/index.ts lines
126-144), and `dispatch` wraps nothing (lines 456-467).  Evaluating the
code at the failing input — three listeners on "ping", the second throws —
the error propagates out of the dispatch, the third listener is never
invoked (log stops at [1, 2]) and the registries are untouched; no sink
exists to receive a report. -/

theorem claimC1 :
    (dispatch behThrow2 emitterThree "ping" 0).thrown = some 0 ∧
    (dispatch behThrow2 emitterThree "ping" 0).log = [1, 2] ∧
    (dispatch behThrow2 emitterThree "ping" 0).state = emitterThree := by
  decide

/-- C5: with no error handler configured (the code never has one), a
listener that throws during a synchronous publish makes the error propagate
out of `emit`: the final state is exactly the pre-publish state (so no
once-pruning happened), the log is the prefix of the collected ids ending
at the thrower (no later-ordered listener is invoked), and every
once-flagged entry of the collected set is still registered afterwards. -/

theorem claimC5 (beh : Nat → Nat → LAct) (s : EmitterState) (e : String)
    (p err : Nat) (hp : s.paused = false) (hna : NoAct beh)
    (hth : (emitOp beh s e p).thrown = some err) :
    (emitOp beh s e p).state = s ∧
    (∃ k, ∃ hk : k < (collectListeners s e).length,
      beh ((collectListeners s e).get ⟨k, hk⟩).id p = LAct.throw err ∧
      (emitOp beh s e p).log =
        ((collectListeners s e).map (·.id)).take (k + 1)) ∧
    (∀ f ∈ collectListeners s e, f.once = true →
      f ∈ allEntries (emitOp beh s e p).state) := by
  have hemit : emitOp beh s e p = dispatch beh s e p := by
    simp [emitOp, hp]
  rw [hemit] at hth ⊢
  obtain ⟨hst, hk⟩ := dispatch_noact_thrown hna hth
  refine ⟨hst, hk, ?_⟩
  intro f hf _
  rw [hst]
  exact collect_mem_allEntries hf

theorem claimC5_witness :
    emitterThree.paused = false ∧ NoAct behThrow2 ∧
    (emitOp behThrow2 emitterThree "ping" 0).thrown = some 0 ∧
    ((emitOp behThrow2 emitterThree "ping" 0).state = emitterThree ∧
     (∃ k, ∃ hk : k < (collectListeners emitterThree "ping").length,
       behThrow2 ((collectListeners emitterThree "ping").get ⟨k, hk⟩).id 0 =
         LAct.throw 0 ∧
       (emitOp behThrow2 emitterThree "ping" 0).log =
         ((collectListeners emitterThree "ping").map (·.id)).take (k + 1)) ∧
     (∀ f ∈ collectListeners emitterThree "ping", f.once = true →
       f ∈ allEntries (emitOp behThrow2 emitterThree "ping" 0).state)) :=
  ⟨by decide, behThrow2_noAct, by decide,
    claimC5 behThrow2 emitterThree "ping" 0 0 (by decide) behThrow2_noAct
      (by decide)⟩

/-- C9: each dispatch operates on the snapshot of listeners collected when
the publish begins: for any behaviour that does not throw, the invocation
log is exactly the ids of the snapshot regardless of registry mutations the
callbacks perform, and an id not registered at publish start is never
invoked in that dispatch.  Concretely: listener 1 unsubscribing listener 2
mid-dispatch does not stop 2 from firing in the same dispatch (log [1, 2])
though it does from the next (log [1]); a listener subscribed mid-dispatch
(id 5, priority 99) is not invoked in that dispatch (log [1, 2]) but is by
the next publish (log [5, 1, 2]). -/

theorem claimC9 (beh : Nat → Nat → LAct) (s : EmitterState) (e : String)
    (p : Nat) (hnt : NoThrow beh) :
    ((dispatch beh s e p).log = (collectListeners s e).map (·.id) ∧
     ∀ n, n ∉ registryIds s → n ∉ (dispatch beh s e p).log) ∧
    ((dispatch behOffTwo emitterTwo "ping" 0).log = [1, 2] ∧
     (dispatch behInert
       (dispatch behOffTwo emitterTwo "ping" 0).state "ping" 0).log = [1] ∧
     (dispatch behOnFive emitterTwo "ping" 0).log = [1, 2] ∧
     (dispatch behInert
       (dispatch behOnFive emitterTwo "ping" 0).state "ping" 0).log =
         [5, 1, 2]) := by
  refine ⟨⟨(dispatch_log_nothrow hnt).1, ?_⟩, by decide, by decide, by decide,
    by decide⟩
  intro n hn hmem
  exact hn (dispatch_log_subset hnt n hmem)

theorem claimC9_witness :
    NoThrow behInert ∧
    (((dispatch behInert emitterTwo "ping" 0).log =
        (collectListeners emitterTwo "ping").map (·.id) ∧
      ∀ n, n ∉ registryIds emitterTwo →
        n ∉ (dispatch behInert emitterTwo "ping" 0).log) ∧
     ((dispatch behOffTwo emitterTwo "ping" 0).log = [1, 2] ∧
      (dispatch behInert
        (dispatch behOffTwo emitterTwo "ping" 0).state "ping" 0).log = [1] ∧
      (dispatch behOnFive emitterTwo "ping" 0).log = [1, 2] ∧
      (dispatch behInert
        (dispatch behOnFive emitterTwo "ping" 0).state "ping" 0).log =
          [5, 1, 2])) :=
  ⟨behInert_noThrow, claimC9 behInert emitterTwo "ping" 0 behInert_noThrow⟩

/-- C4: for every registry state and event name, the collected dispatch
sequence is sorted by strictly descending-or-equal priority, is a
permutation of the exact-registry list concatenated before the matching
wildcard entries, and preserves each priority class of that concatenation
verbatim (so ties fire in concatenation order: exact entries first, then
wildcard entries, each in stable registration order); for any non-throwing
behaviour the dispatch invocation log is exactly this sequence; subscribing
priorities [1, 10, 5] to one event fires them as [10, 5, 1]. -/

theorem claimC4 (beh : Nat → Nat → LAct) (s : EmitterState) (e : String)
    (p : Nat) (hnt : NoThrow beh) :
    (SortedDescW (·.priority) (collectListeners s e) ∧
     collectListeners s e ~
       ((mapGet s.listeners e).getD [] ++
         (s.wildcardListeners.filter (fun w => matchWildcard w.1 e)).map (·.2)) ∧
     (∀ k : Int, (collectListeners s e).filter (fun x => x.priority = k) =
       ((mapGet s.listeners e).getD [] ++
         (s.wildcardListeners.filter (fun w => matchWildcard w.1 e)).map
           (·.2)).filter (fun x => x.priority = k)) ∧
     (dispatch beh s e p).log = (collectListeners s e).map (·.id)) ∧
    (dispatch behInert emitterPr "ping" 0).log = [2, 3, 1] :=
  ⟨⟨collectListeners_sorted s e, collectListeners_perm s e,
    fun k => collectListeners_filter s e k, (dispatch_log_nothrow hnt).1⟩,
   by decide⟩

theorem claimC4_witness :
    NoThrow behInert ∧
    ((SortedDescW (·.priority) (collectListeners emitterPr "ping") ∧
      collectListeners emitterPr "ping" ~
        ((mapGet emitterPr.listeners "ping").getD [] ++
          (emitterPr.wildcardListeners.filter
            (fun w => matchWildcard w.1 "ping")).map (·.2)) ∧
      (∀ k : Int,
        (collectListeners emitterPr "ping").filter (fun x => x.priority = k) =
        ((mapGet emitterPr.listeners "ping").getD [] ++
          (emitterPr.wildcardListeners.filter
            (fun w => matchWildcard w.1 "ping")).map (·.2)).filter
          (fun x => x.priority = k)) ∧
      (dispatch behInert emitterPr "ping" 0).log =
        (collectListeners emitterPr "ping").map (·.id)) ∧
     (dispatch behInert emitterPr "ping" 0).log = [2, 3, 1]) :=
  ⟨behInert_noThrow, claimC4 behInert emitterPr "ping" 0 behInert_noThrow⟩

/-! ## Support lemmas for once-pruning -/

theorem countP_one_unique {q : α → Bool} {l : List α} (h : l.countP q = 1)
    {a b : α} (ha : a ∈ l) (hqa : q a = true) (hb : b ∈ l) (hqb : q b = true) :
    a = b := by
  have hlen : (l.filter q).length = 1 := by
    rw [← List.countP_eq_length_filter]
    exact h
  rcases List.length_eq_one.mp hlen with ⟨z, hz⟩
  have ha' : a ∈ l.filter q := List.mem_filter.mpr ⟨ha, hqa⟩
  have hb' : b ∈ l.filter q := List.mem_filter.mpr ⟨hb, hqb⟩
  rw [hz] at ha' hb'
  simp only [List.mem_singleton] at ha' hb'
  rw [ha', hb']

theorem mapGet_sublist_flatten {m : List (String × List α)} {k : String}
    {w : List α} (hm : mapGet m k = some w) : w <+ (m.map (·.2)).flatten := by
  induction m with
  | nil => simp [mapGet] at hm
  | cons kv rest ih =>
    rcases kv with ⟨k0, w0⟩
    by_cases hk : k0 = k
    · simp only [mapGet, hk, if_true, Option.some.injEq] at hm
      subst hm
      simp only [List.map_cons, List.flatten_cons]
      exact List.sublist_append_left _ _
    · simp only [mapGet, hk, if_false] at hm
      simp only [List.map_cons, List.flatten_cons]
      exact List.sublist_append_of_sublist_right (ih hm)

theorem pruneOnce_wild_eq (s : EmitterState) (e : String)
    (fired : List StoredListener)
    (h1 : ¬(fired.filter (·.once)).isEmpty = true) :
    (pruneOnce s e fired).wildcardListeners =
      (fired.filter (·.once)).foldl
        (fun wl (f : StoredListener) =>
          removeFirst (fun w : String × StoredListener => w.2.id = f.id) wl)
        s.wildcardListeners := by
  cases hm : mapGet s.listeners e with
  | none => simp [pruneOnce, h1, hm]
  | some list =>
    by_cases h2 : ((fired.filter (·.once)).foldl
        (fun l (f : StoredListener) =>
          removeFirst (fun x : StoredListener => x.id = f.id) l)
        list).isEmpty = true <;>
      simp [pruneOnce, h1, hm, h2]

theorem pruneOnce_exactEntries_sublist (s : EmitterState) (e : String)
    (fired : List StoredListener) :
    exactEntries (pruneOnce s e fired) <+ exactEntries s := by
  by_cases h1 : (fired.filter (·.once)).isEmpty = true
  · have hp : pruneOnce s e fired = s := by simp [pruneOnce, h1]
    rw [hp]
  · unfold exactEntries
    cases hm : mapGet s.listeners e with
    | none =>
      have hl : (pruneOnce s e fired).listeners = s.listeners := by
        simp [pruneOnce, h1, hm]
      rw [hl]
    | some list =>
      by_cases h2 : ((fired.filter (·.once)).foldl
          (fun l (f : StoredListener) =>
            removeFirst (fun x : StoredListener => x.id = f.id) l)
          list).isEmpty = true
      · have hl : (pruneOnce s e fired).listeners =
            mapDelete s.listeners e := by
          simp [pruneOnce, h1, hm, h2]
        rw [hl]
        exact flatten_mapDelete_sublist _ _
      · have hl : (pruneOnce s e fired).listeners =
            mapSet s.listeners e
              ((fired.filter (·.once)).foldl
                (fun l (f : StoredListener) =>
                  removeFirst (fun x : StoredListener => x.id = f.id) l)
                list) := by
          simp [pruneOnce, h1, hm, h2]
        rw [hl]
        exact flatten_mapSet_sublist hm (foldl_removeFirst_sublist _ _ _)

theorem foldl_removeOnce_exact_zero (onceFired list : List StoredListener)
    (L : StoredListener)
    (hcount : list.countP (fun x => decide (x.id = L.id)) = 1)
    (hLin : L ∈ onceFired) :
    ((onceFired.foldl
      (fun l (f : StoredListener) =>
        removeFirst (fun x : StoredListener => x.id = f.id) l)
      list).countP (fun x => decide (x.id = L.id))) = 0 := by
  apply foldl_removeFirst_countP_zero onceFired list hcount
  · intro f hf
    by_cases hid : f.id = L.id
    · left
      funext x
      rw [hid]
    · right
      intro x hx
      simp only [decide_eq_true_eq] at hx
      simp only [decide_eq_false_iff_not]
      omega
  · refine ⟨L, hLin, ?_⟩
    funext x
    rfl

theorem foldl_removeOnce_wild_zero (onceFired : List StoredListener)
    (wl : List (String × StoredListener)) (L : StoredListener)
    (hcount : wl.countP (fun w => decide (w.2.id = L.id)) = 1)
    (hLin : L ∈ onceFired) :
    ((onceFired.foldl
      (fun wl (f : StoredListener) =>
        removeFirst (fun w : String × StoredListener => w.2.id = f.id) wl)
      wl).countP (fun w => decide (w.2.id = L.id))) = 0 := by
  apply foldl_removeFirst_countP_zero onceFired wl hcount
  · intro f hf
    by_cases hid : f.id = L.id
    · left
      funext w
      rw [hid]
    · right
      intro w hw
      simp only [decide_eq_true_eq] at hw
      simp only [decide_eq_false_iff_not]
      omega
  · refine ⟨L, hLin, ?_⟩
    funext w
    rfl

/-- After a completed dispatch, a once-flagged entry whose id is unique in
the registries and which was part of the collected set is gone from both
registries. -/

theorem pruneOnce_unique_zero (s : EmitterState) (e : String)
    (L : StoredListener) (honce : L.once = true)
    (huniq : (allEntries s).countP (fun x => decide (x.id = L.id)) = 1)
    (hmatch : L ∈ collectListeners s e) :
    (allEntries (pruneOnce s e (collectListeners s e))).countP
      (fun x => decide (x.id = L.id)) = 0 := by
  have hqL : (fun x : StoredListener => decide (x.id = L.id)) L = true := by
    simp
  have honceF : L ∈ (collectListeners s e).filter (·.once) :=
    List.mem_filter.mpr ⟨hmatch, honce⟩
  have h1 : ¬((collectListeners s e).filter (·.once)).isEmpty = true := by
    intro hc
    rw [List.isEmpty_iff] at hc
    rw [hc] at honceF
    exact absurd honceF (List.not_mem_nil L)
  have hsum : (exactEntries s).countP (fun x => decide (x.id = L.id)) +
      ((s.wildcardListeners.map (·.2)).countP
        (fun x => decide (x.id = L.id))) = 1 := by
    have h := huniq
    unfold allEntries at h
    rwa [List.countP_append] at h
  have hwildrel : (s.wildcardListeners.map (·.2)).countP
      (fun x => decide (x.id = L.id)) =
      s.wildcardListeners.countP (fun w => decide (w.2.id = L.id)) := by
    rw [List.countP_map]
    rfl
  have hcperm := collectListeners_perm s e
  have hwild_eq := pruneOnce_wild_eq s e (collectListeners s e) h1
  have hcount_split :
      (allEntries (pruneOnce s e (collectListeners s e))).countP
        (fun x => decide (x.id = L.id)) =
      (exactEntries (pruneOnce s e (collectListeners s e))).countP
        (fun x => decide (x.id = L.id)) +
      ((pruneOnce s e (collectListeners s e)).wildcardListeners.countP
        (fun w => decide (w.2.id = L.id))) := by
    unfold allEntries
    rw [List.countP_append, List.countP_map]
    rfl
  rcases List.mem_append.mp (hcperm.mem_iff.mp hmatch) with hLe | hLw
  · -- the unique entry sits in the exact registry
    cases hm : mapGet s.listeners e with
    | none =>
      rw [hm] at hLe
      simp at hLe
    | some list =>
      rw [hm] at hLe
      simp only [Option.getD_some] at hLe
      have hlist_pos : 0 < list.countP (fun x => decide (x.id = L.id)) :=
        List.countP_pos_iff.mpr ⟨L, hLe, hqL⟩
      have hflat_ge : list.countP (fun x => decide (x.id = L.id)) ≤
          (exactEntries s).countP (fun x => decide (x.id = L.id)) := by
        unfold exactEntries
        exact (mapGet_sublist_flatten hm).countP_le _
      have hflat1 : (exactEntries s).countP (fun x => decide (x.id = L.id)) = 1 := by
        omega
      have hwild0 : s.wildcardListeners.countP
          (fun w => decide (w.2.id = L.id)) = 0 := by
        omega
      have hlist1 : list.countP (fun x => decide (x.id = L.id)) = 1 := by
        omega
      have hzero := foldl_removeOnce_exact_zero
        ((collectListeners s e).filter (·.once)) list L hlist1 honceF
      -- the wildcard side can only shrink, and already held no such id
      have hwildfin : ((pruneOnce s e (collectListeners s e)).wildcardListeners.countP
          (fun w => decide (w.2.id = L.id))) = 0 := by
        rw [hwild_eq]
        have hsub := foldl_removeFirst_sublist
          (fun (f : StoredListener) =>
            (fun w : String × StoredListener => decide (w.2.id = f.id)))
          ((collectListeners s e).filter (·.once)) s.wildcardListeners
        have hle := hsub.countP_le (fun w => decide (w.2.id = L.id))
        omega
      rw [hcount_split, hwildfin]
      -- now the exact side
      by_cases h2 : (((collectListeners s e).filter (·.once)).foldl
          (fun l (f : StoredListener) =>
            removeFirst (fun x : StoredListener => x.id = f.id) l)
          list).isEmpty = true
      · have hl : (pruneOnce s e (collectListeners s e)).listeners =
            mapDelete s.listeners e := by
          simp [pruneOnce, h1, hm, h2]
        have hdel := countP_flatten_mapDelete
          (fun x : StoredListener => decide (x.id = L.id)) s.listeners e
        rw [hm] at hdel
        simp only [Option.getD_some] at hdel
        unfold exactEntries
        rw [hl]
        unfold exactEntries at hflat1
        omega
      · have hl : (pruneOnce s e (collectListeners s e)).listeners =
            mapSet s.listeners e
              (((collectListeners s e).filter (·.once)).foldl
                (fun l (f : StoredListener) =>
                  removeFirst (fun x : StoredListener => x.id = f.id) l)
                list) := by
          simp [pruneOnce, h1, hm, h2]
        have hset := countP_flatten_mapSet
          (fun x : StoredListener => decide (x.id = L.id)) s.listeners e
          (((collectListeners s e).filter (·.once)).foldl
            (fun l (f : StoredListener) =>
              removeFirst (fun x : StoredListener => x.id = f.id) l)
            list)
        rw [hm] at hset
        simp only [Option.getD_some] at hset
        unfold exactEntries
        rw [hl]
        unfold exactEntries at hflat1
        omega
  · -- the unique entry sits in the wildcard registry
    have hLw' : L ∈ s.wildcardListeners.map (·.2) := by
      rcases List.mem_map.mp hLw with ⟨w, hw, rfl⟩
      exact List.mem_map.mpr ⟨w, List.mem_of_mem_filter hw, rfl⟩
    have hwild_pos : 0 < (s.wildcardListeners.map (·.2)).countP
        (fun x => decide (x.id = L.id)) :=
      List.countP_pos_iff.mpr ⟨L, hLw', hqL⟩
    have hwild1 : s.wildcardListeners.countP
        (fun w => decide (w.2.id = L.id)) = 1 := by
      omega
    have hflat0 : (exactEntries s).countP (fun x => decide (x.id = L.id)) = 0 := by
      omega
    have hzero := foldl_removeOnce_wild_zero
      ((collectListeners s e).filter (·.once)) s.wildcardListeners L hwild1 honceF
    have hexfin : (exactEntries (pruneOnce s e (collectListeners s e))).countP
        (fun x => decide (x.id = L.id)) = 0 := by
      have hle := (pruneOnce_exactEntries_sublist s e
        (collectListeners s e)).countP_le (fun x => decide (x.id = L.id))
      omega
    rw [hcount_split, hexfin, hwild_eq]
    omega

theorem registryIds_count (s : EmitterState) (n : Nat) :
    (registryIds s).count n =
      (allEntries s).countP (fun x => decide (x.id = n)) := by
  unfold registryIds
  rw [List.count_eq_countP, List.countP_map]
  apply List.countP_congr
  intro x hx
  simp

theorem count_map_id (c : List StoredListener) (n : Nat) :
    (c.map (·.id)).count n = c.countP (fun x => decide (x.id = n)) := by
  rw [List.count_eq_countP, List.countP_map]
  apply List.countP_congr
  intro x hx
  simp

theorem collect_countP_le (s : EmitterState) (e : String)
    (q : StoredListener → Bool) :
    (collectListeners s e).countP q ≤ (allEntries s).countP q := by
  rw [(collectListeners_perm s e).countP_eq]
  unfold allEntries
  rw [List.countP_append, List.countP_append]
  apply Nat.add_le_add
  · cases hm : mapGet s.listeners e with
    | none => simp
    | some list =>
      simp only [Option.getD_some]
      unfold exactEntries
      exact (mapGet_sublist_flatten hm).countP_le q
  · rw [List.countP_map, List.countP_map]
    exact (List.filter_sublist s.wildcardListeners).countP_le _

/-- C8: a listener entry registered with `once = true` — under an exact name
or a wildcard pattern — whose id occurs exactly once in the registries, and
which matches a published event, is invoked exactly once by that publish
(when the dispatch completes without an unhandled error, here: inert
callbacks), is absent from both registries afterwards, and is not invoked
by any subsequent publish. -/

theorem claimC8 (beh : Nat → Nat → LAct) (s : EmitterState) (e : String)
    (p : Nat) (L : StoredListener) (hin : Inert beh) (honce : L.once = true)
    (hmem : L ∈ allEntries s)
    (huniq : (registryIds s).count L.id = 1)
    (hmatch : L.id ∈ (collectListeners s e).map (·.id)) :
    (dispatch beh s e p).log.count L.id = 1 ∧
    L.id ∉ registryIds (dispatch beh s e p).state ∧
    (∀ e' p', (dispatch beh (dispatch beh s e p).state e' p').log.count
      L.id = 0) := by
  have huniq' : (allEntries s).countP (fun x => decide (x.id = L.id)) = 1 := by
    rw [← registryIds_count]
    exact huniq
  obtain ⟨x, hxc, hxid⟩ := List.mem_map.mp hmatch
  have hxall := collect_mem_allEntries hxc
  have hxL : x = L :=
    countP_one_unique huniq' hxall (by simp [hxid]) hmem (by simp)
  subst hxL
  have hccount1 : (collectListeners s e).countP
      (fun y => decide (y.id = x.id)) = 1 := by
    have hle := collect_countP_le s e (fun y => decide (y.id = x.id))
    have hpos : 0 < (collectListeners s e).countP
        (fun y => decide (y.id = x.id)) :=
      List.countP_pos_iff.mpr ⟨x, hxc, by simp⟩
    omega
  have hd := dispatch_inert (s := s) (e := e) (p := p) hin
  have hz := pruneOnce_unique_zero s e x honce huniq' hxc
  refine ⟨?_, ?_, ?_⟩
  · rw [hd.2.1, count_map_id]
    exact hccount1
  · rw [hd.1]
    intro hcon
    unfold registryIds at hcon
    obtain ⟨y, hy, hyid⟩ := List.mem_map.mp hcon
    have hpos : 0 < (allEntries (pruneOnce s e (collectListeners s e))).countP
        (fun z => decide (z.id = x.id)) :=
      List.countP_pos_iff.mpr ⟨y, hy, by simp [hyid]⟩
    omega
  · intro e' p'
    have hd2 := dispatch_inert (s := (dispatch beh s e p).state) (e := e')
      (p := p') hin
    rw [hd2.2.1, count_map_id]
    have hle := collect_countP_le (dispatch beh s e p).state e'
      (fun y => decide (y.id = x.id))
    have hz2 : (allEntries (dispatch beh s e p).state).countP
        (fun y => decide (y.id = x.id)) = 0 := by
      rw [hd.1]
      exact hz
    omega

theorem claimC8_witness :
    Inert behInert ∧ (⟨7, true, 0⟩ : StoredListener).once = true ∧
    (⟨7, true, 0⟩ : StoredListener) ∈ allEntries emitterOnce ∧
    (registryIds emitterOnce).count 7 = 1 ∧
    (7 : Nat) ∈ (collectListeners emitterOnce "ping").map (·.id) ∧
    ((dispatch behInert emitterOnce "ping" 0).log.count 7 = 1 ∧
     (7 : Nat) ∉ registryIds (dispatch behInert emitterOnce "ping" 0).state ∧
     (∀ e' p', (dispatch behInert
       (dispatch behInert emitterOnce "ping" 0).state e' p').log.count
         7 = 0)) :=
  ⟨behInert_inert, rfl, by decide, by decide, by decide,
    claimC8 behInert emitterOnce "ping" 0 ⟨7, true, 0⟩ behInert_inert rfl
      (by decide) (by decide) (by decide)⟩

theorem resumeOp_def (beh : Nat → Nat → LAct) (s : EmitterState) :
    resumeOp beh s =
      resumeGo beh s.buffer { s with paused := false, buffer := [] } [] := rfl

theorem resumeGo_inert_fields {beh : Nat → Nat → LAct} (hin : Inert beh) :
    ∀ (pending : List (String × Nat)) (s : EmitterState) (log : List Nat),
    (resumeGo beh pending s log).state.buffer = s.buffer ∧
    (resumeGo beh pending s log).state.maxBufferSize = s.maxBufferSize ∧
    (resumeGo beh pending s log).state.paused = s.paused ∧
    (resumeGo beh pending s log).thrown = none := by
  intro pending
  induction pending with
  | nil =>
    intro s log
    simp [resumeGo]
  | cons ep rest ih =>
    intro s log
    rcases ep with ⟨e, p⟩
    have hd := dispatch_inert (s := s) (e := e) (p := p) hin
    have hpf := pruneOnce_fields s e (collectListeners s e)
    have hstep : resumeGo beh ((e, p) :: rest) s log =
        resumeGo beh rest (dispatch beh s e p).state
          (log ++ (dispatch beh s e p).log) := by
      simp only [resumeGo]
      rw [hd.2.2]
    rw [hstep, hd.1]
    have hrec := ih (pruneOnce s e (collectListeners s e))
      (log ++ (dispatch beh s e p).log)
    exact ⟨hrec.1.trans hpf.1, hrec.2.1.trans hpf.2.2.1,
      hrec.2.2.1.trans hpf.2.1, hrec.2.2.2⟩

theorem onOp_fields (s : EmitterState) (e : String) (id : Nat) (o : Bool)
    (pr : Int) :
    (onOp s e id o pr).buffer = s.buffer ∧
    (onOp s e id o pr).maxBufferSize = s.maxBufferSize ∧
    (onOp s e id o pr).paused = s.paused := by
  unfold onOp
  split <;> simp

theorem offOp_fields (s : EmitterState) (e : String) (id : Nat) :
    (offOp s e id).buffer = s.buffer ∧
    (offOp s e id).maxBufferSize = s.maxBufferSize ∧
    (offOp s e id).paused = s.paused := by
  by_cases hw : isWild e = true
  · simp [offOp, hw]
  · cases hm : mapGet s.listeners e with
    | none => simp [offOp, hw, hm]
    | some list =>
      by_cases h2 : (removeFirst (fun x : StoredListener => x.id = id)
          list).isEmpty = true <;>
        simp [offOp, hw, hm, h2]

theorem emitAsyncOp_eq (beh : Nat → Nat → LAct) (s : EmitterState)
    (e : String) (p : Nat) : emitAsyncOp beh s e p = emitOp beh s e p := rfl

theorem emit_preserves_bound {beh : Nat → Nat → LAct} (hin : Inert beh)
    (s : EmitterState) (e : String) (p : Nat)
    (hinv : (s.buffer.length : Int) ≤ s.maxBufferSize) :
    ((emitOp beh s e p).state.buffer.length : Int) ≤
      (emitOp beh s e p).state.maxBufferSize := by
  by_cases hp : s.paused = true
  · by_cases hlt : (s.buffer.length : Int) < s.maxBufferSize
    · have hres : emitOp beh s e p =
          ⟨{ s with buffer := s.buffer ++ [(e, p)] }, [], none, false⟩ := by
        unfold emitOp
        rw [if_pos hp, if_pos hlt]
      rw [hres]
      simp
      omega
    · have hres : emitOp beh s e p = ⟨s, [], none, false⟩ := by
        unfold emitOp
        rw [if_pos hp, if_neg hlt]
      rw [hres]
      exact hinv
  · have hres : emitOp beh s e p = dispatch beh s e p := by
      unfold emitOp
      rw [if_neg hp]
    rw [hres, (dispatch_inert (s := s) (e := e) (p := p) hin).1]
    have hpf := pruneOnce_fields s e (collectListeners s e)
    rw [hpf.1, hpf.2.2.1]
    exact hinv

/-- C7 is false as stated: the operation sequence pause, publish,
`setMaxBufferSize(0)` ends with a buffer longer than the current
`maxBufferSize`, because `setMaxBufferSize` only assigns the field and never
truncates the buffer (src/index.ts lines 170-173). -/

theorem claimC7_counterexample :
    (runOps behInert emitterInit
      [POp.pause, POp.emit "a" 0, POp.setMaxBufferSize 0]).maxBufferSize <
    ((runOps behInert emitterInit
      [POp.pause, POp.emit "a" 0, POp.setMaxBufferSize 0]).buffer.length :
        Int) := by
  decide

/-- C7 (amended): every public operation preserves the bound
`buffer.length ≤ maxBufferSize`, except that `setMaxBufferSize n` preserves
it only when `n` is not below the current buffer length (the source never
truncates); and a publish while paused with a full buffer is silently
discarded — the state is unchanged, nothing is invoked, no error is raised
and `false` is returned without consulting the registry. -/

theorem claimC7 (beh : Nat → Nat → LAct) (s : EmitterState) (op : POp)
    (hin : Inert beh)
    (hinv : (s.buffer.length : Int) ≤ s.maxBufferSize)
    (hguard : ∀ n : Int, op = POp.setMaxBufferSize n →
      (s.buffer.length : Int) ≤ n) :
    (((stepOp beh s op).buffer.length : Int) ≤
      (stepOp beh s op).maxBufferSize) ∧
    (∀ e p, s.paused = true → s.maxBufferSize ≤ (s.buffer.length : Int) →
      emitOp beh s e p = ⟨s, [], none, false⟩) := by
  constructor
  · cases op
    next e id o pr =>
      have h := onOp_fields s e id o pr
      simp only [stepOp]
      rw [h.1, h.2.1]
      exact hinv
    next e id =>
      have h := offOp_fields s e id
      simp only [stepOp]
      rw [h.1, h.2.1]
      exact hinv
    next e p =>
      simp only [stepOp]
      exact emit_preserves_bound hin s e p hinv
    next e p =>
      simp only [stepOp]
      rw [emitAsyncOp_eq]
      exact emit_preserves_bound hin s e p hinv
    next => simpa [stepOp, pauseOp] using hinv
    next =>
      have h := resumeGo_inert_fields hin s.buffer
        { s with paused := false, buffer := [] } []
      simp only [stepOp]
      rw [resumeOp_def, h.1, h.2.1]
      have hge : (0 : Int) ≤ (s.buffer.length : Int) := Int.natCast_nonneg _
      simp only [List.length_nil, Int.natCast_zero]
      omega
    next o =>
      cases o <;> simpa [stepOp, clearOp] using hinv
    next =>
      have hge : (0 : Int) ≤ (s.buffer.length : Int) := Int.natCast_nonneg _
      simp only [stepOp, disposeOp, List.length_nil, Int.natCast_zero]
      omega
    next n => simpa [stepOp, setMaxListenersOp] using hinv
    next n =>
      have hg := hguard n rfl
      simpa [stepOp, setMaxBufferSizeOp] using hg
  · intro e p hp hfull
    unfold emitOp
    rw [if_pos hp, if_neg (by omega)]

theorem claimC7_witness :
    Inert behInert ∧
    ((emitterInit.buffer.length : Int) ≤ emitterInit.maxBufferSize) ∧
    ((((stepOp behInert emitterInit POp.pause).buffer.length : Int) ≤
        (stepOp behInert emitterInit POp.pause).maxBufferSize) ∧
     (∀ e p, emitterInit.paused = true →
        emitterInit.maxBufferSize ≤ (emitterInit.buffer.length : Int) →
        emitOp behInert emitterInit e p = ⟨emitterInit, [], none, false⟩)) :=
  ⟨behInert_inert, by decide,
    claimC7 behInert emitterInit POp.pause behInert_inert (by decide)
      (fun n h => POp.noConfusion h)⟩

/-- C10: with `maxBufferSize = 0`, buffering is disabled entirely: while
paused (buffer empty) every publish is silently dropped — state unchanged,
nothing invoked, `false` returned — and this holds across any sequence of
publishes, after which the buffer is still empty and the subsequent resume
invokes nothing; when not paused the emitter dispatches normally regardless
of `maxBufferSize`. -/

theorem claimC10 (beh : Nat → Nat → LAct) (s : EmitterState)
    (entries : List (String × Nat))
    (hmax : s.maxBufferSize = 0) (hpause : s.paused = true)
    (hbuf : s.buffer = []) :
    (∀ e p, emitOp beh s e p = ⟨s, [], none, false⟩) ∧
    ((entries.foldl (fun t ep => (emitOp beh t ep.1 ep.2).state) s).buffer
        = [] ∧
     (entries.foldl (fun t ep => (emitOp beh t ep.1 ep.2).state) s).paused
        = true ∧
     (entries.foldl (fun t ep =>
        (emitOp beh t ep.1 ep.2).state) s).maxBufferSize = 0) ∧
    (resumeOp beh
      (entries.foldl (fun t ep => (emitOp beh t ep.1 ep.2).state) s)).log
        = [] ∧
    (∀ s' : EmitterState, ∀ e p, s'.paused = false →
      emitOp beh s' e p = dispatch beh s' e p) := by
  have hstep : ∀ st : EmitterState, st.maxBufferSize = 0 → st.paused = true →
      st.buffer = [] → ∀ e p, emitOp beh st e p = ⟨st, [], none, false⟩ := by
    intro st h1 h2 h3 e p
    have hcond : ¬((st.buffer.length : Int) < st.maxBufferSize) := by
      rw [h3, h1]
      simp
    unfold emitOp
    rw [if_pos h2, if_neg hcond]
  have hfold : ∀ (es : List (String × Nat)) (st : EmitterState),
      st.maxBufferSize = 0 → st.paused = true → st.buffer = [] →
      (es.foldl (fun t ep => (emitOp beh t ep.1 ep.2).state) st).buffer = [] ∧
      (es.foldl (fun t ep => (emitOp beh t ep.1 ep.2).state) st).paused
        = true ∧
      (es.foldl (fun t ep =>
        (emitOp beh t ep.1 ep.2).state) st).maxBufferSize = 0 := by
    intro es
    induction es with
    | nil =>
      intro st h1 h2 h3
      exact ⟨h3, h2, h1⟩
    | cons ep rest ih =>
      intro st h1 h2 h3
      have h := hstep st h1 h2 h3 ep.1 ep.2
      simp only [List.foldl_cons, h]
      exact ih st h1 h2 h3
  refine ⟨hstep s hmax hpause hbuf, hfold entries s hmax hpause hbuf, ?_, ?_⟩
  · have hf := hfold entries s hmax hpause hbuf
    rw [resumeOp_def, hf.1]
    simp [resumeGo]
  · intro s' e p hp'
    unfold emitOp
    rw [if_neg (by simp [hp'])]

theorem claimC10_witness :
    emitterZero.maxBufferSize = 0 ∧ emitterZero.paused = true ∧
    emitterZero.buffer = [] ∧
    ((∀ e p, emitOp behInert emitterZero e p = ⟨emitterZero, [], none, false⟩) ∧
     (([("a", 1), ("b", 2)].foldl
        (fun t ep => (emitOp behInert t ep.1 ep.2).state)
        emitterZero).buffer = [] ∧
      ([("a", 1), ("b", 2)].foldl
        (fun t ep => (emitOp behInert t ep.1 ep.2).state)
        emitterZero).paused = true ∧
      ([("a", 1), ("b", 2)].foldl
        (fun t ep => (emitOp behInert t ep.1 ep.2).state)
        emitterZero).maxBufferSize = 0) ∧
     (resumeOp behInert
       ([("a", 1), ("b", 2)].foldl
         (fun t ep => (emitOp behInert t ep.1 ep.2).state)
         emitterZero)).log = [] ∧
     (∀ s' : EmitterState, ∀ e p, s'.paused = false →
       emitOp behInert s' e p = dispatch behInert s' e p)) :=
  ⟨rfl, rfl, rfl,
    claimC10 behInert emitterZero [("a", 1), ("b", 2)] rfl rfl rfl⟩

/-! ## Replay counting for `resume` -/

theorem mapGet_pair_countP_le {m : List (String × List α)} {k1 k2 : String}
    {w1 w2 : List α} (q : α → Bool) (h1 : mapGet m k1 = some w1)
    (h2 : mapGet m k2 = some w2) (hne : k1 ≠ k2) :
    w1.countP q + w2.countP q ≤ ((m.map (·.2)).flatten).countP q := by
  induction m with
  | nil => simp [mapGet] at h1
  | cons kv rest ih =>
    rcases kv with ⟨k0, w0⟩
    simp only [List.map_cons, List.flatten_cons, List.countP_append]
    by_cases hk1 : k0 = k1
    · subst hk1
      simp only [mapGet, if_pos, Option.some.injEq] at h1
      subst h1
      have h2' : mapGet rest k2 = some w2 := by
        simpa [mapGet, hne] using h2
      have := (mapGet_sublist_flatten h2').countP_le q
      omega
    · by_cases hk2 : k0 = k2
      · subst hk2
        simp only [mapGet, if_pos, Option.some.injEq] at h2
        subst h2
        have h1' : mapGet rest k1 = some w1 := by
          simpa [mapGet, hk1] using h1
        have := (mapGet_sublist_flatten h1').countP_le q
        omega
      · have h1' : mapGet rest k1 = some w1 := by
          simpa [mapGet, hk1] using h1
        have h2' : mapGet rest k2 = some w2 := by
          simpa [mapGet, hk2] using h2
        have := ih h1' h2'
        omega

theorem exactUnique_mapGet {nm : String} {L : StoredListener}
    {st : EmitterState} (h : ExactUnique nm L st) :
    ∃ w, mapGet st.listeners nm = some w ∧
      w.countP (fun x => decide (x.id = L.id)) = 1 := by
  cases hm : mapGet st.listeners nm with
  | none =>
    have h1 := h.1
    rw [hm] at h1
    simp at h1
  | some w =>
    have h1 := h.1
    rw [hm] at h1
    simp only [Option.getD_some] at h1
    exact ⟨w, rfl, h1⟩

theorem exact_chunk_count {beh : Nat → Nat → LAct} {nm : String}
    {L : StoredListener} {st : EmitterState} (hin : Inert beh)
    (hinv : ExactUnique nm L st) (e : String) (p : Nat) :
    (dispatch beh st e p).log.count L.id = if e = nm then 1 else 0 := by
  obtain ⟨hE1, hE2, hE3, hE4⟩ := hinv
  rw [(dispatch_inert (s := st) (e := e) (p := p) hin).2.1, count_map_id,
    (collectListeners_perm st e).countP_eq, List.countP_append]
  have hwild : ((st.wildcardListeners.filter
      (fun w => matchWildcard w.1 e)).map (·.2)).countP
      (fun x => decide (x.id = L.id)) = 0 := by
    rw [List.countP_map]
    have hle := (List.filter_sublist
      (p := fun w => matchWildcard w.1 e) st.wildcardListeners).countP_le
      (fun w : String × StoredListener => decide (w.2.id = L.id))
    have hcongr : (st.wildcardListeners.filter
        (fun w => matchWildcard w.1 e)).countP
        ((fun x : StoredListener => decide (x.id = L.id)) ∘ (·.2)) =
        (st.wildcardListeners.filter
          (fun w => matchWildcard w.1 e)).countP
        (fun w => decide (w.2.id = L.id)) := by
      apply List.countP_congr
      intro w hw
      simp
    omega
  rw [hwild]
  by_cases he : e = nm
  · subst he
    rw [if_pos rfl, hE1]
  · rw [if_neg he]
    cases hm2 : mapGet st.listeners e with
    | none => simp
    | some w =>
      obtain ⟨wnm, hm1, hw1⟩ := exactUnique_mapGet ⟨hE1, hE2, hE3, hE4⟩
      have hpair := mapGet_pair_countP_le
        (fun x : StoredListener => decide (x.id = L.id)) hm2 hm1 he
      unfold exactEntries at hE2
      simp only [Option.getD_some]
      omega

theorem exact_preserved {beh : Nat → Nat → LAct} {nm : String}
    {L : StoredListener} {st : EmitterState} (hin : Inert beh)
    (hinv : ExactUnique nm L st) (e : String) (p : Nat) :
    ExactUnique nm L (dispatch beh st e p).state := by
  obtain ⟨hE1, hE2, hE3, hE4⟩ := hinv
  rw [(dispatch_inert (s := st) (e := e) (p := p) hin).1]
  have hdisj : ∀ f ∈ (collectListeners st e).filter (·.once),
      ¬ f.id = L.id := by
    intro f hf hid
    have hfc := List.mem_of_mem_filter hf
    have hfall := collect_mem_allEntries hfc
    have hfonce : f.once = true := (List.mem_filter.mp hf).2
    have hff := hE4 f hfall hid
    rw [hff] at hfonce
    exact Bool.noConfusion hfonce
  by_cases h1 : ((collectListeners st e).filter (·.once)).isEmpty = true
  · have hp : pruneOnce st e (collectListeners st e) = st := by
      simp [pruneOnce, h1]
    rw [hp]
    exact ⟨hE1, hE2, hE3, hE4⟩
  · have hw := pruneOnce_wild_eq st e (collectListeners st e) h1
    have hE3' : (pruneOnce st e
        (collectListeners st e)).wildcardListeners.countP
        (fun w => decide (w.2.id = L.id)) = 0 := by
      rw [hw]
      have hsub := foldl_removeFirst_sublist
        (fun (f : StoredListener) =>
          (fun w : String × StoredListener => decide (w.2.id = f.id)))
        ((collectListeners st e).filter (·.once)) st.wildcardListeners
      have hle := hsub.countP_le
        (fun w : String × StoredListener => decide (w.2.id = L.id))
      omega
    have hE4' : ∀ x ∈ allEntries (pruneOnce st e (collectListeners st e)),
        x.id = L.id → x.once = false := by
      intro x hx hid
      exact hE4 x ((pruneOnce_allEntries_sublist st e _).subset hx) hid
    obtain ⟨wnm, hmnm, hwnm1⟩ := exactUnique_mapGet ⟨hE1, hE2, hE3, hE4⟩
    cases hm : mapGet st.listeners e with
    | none =>
      have hl : (pruneOnce st e (collectListeners st e)).listeners =
          st.listeners := by
        simp [pruneOnce, h1, hm]
      refine ⟨?_, ?_, hE3', hE4'⟩
      · rw [hl]
        exact hE1
      · unfold exactEntries at hE2 ⊢
        rw [hl]
        exact hE2
    | some list =>
      have hfold_count : (((collectListeners st e).filter (·.once)).foldl
          (fun l (f : StoredListener) =>
            removeFirst (fun x : StoredListener => x.id = f.id) l)
          list).countP (fun x => decide (x.id = L.id)) =
          list.countP (fun x => decide (x.id = L.id)) := by
        apply foldl_removeFirst_countP_disj
        intro f hf x hx
        simp only [decide_eq_true_eq] at hx
        simp only [decide_eq_false_iff_not]
        intro hxL
        exact hdisj f hf (by omega)
      by_cases h2 : (((collectListeners st e).filter (·.once)).foldl
          (fun l (f : StoredListener) =>
            removeFirst (fun x : StoredListener => x.id = f.id) l)
          list).isEmpty = true
      · have hl : (pruneOnce st e (collectListeners st e)).listeners =
            mapDelete st.listeners e := by
          simp [pruneOnce, h1, hm, h2]
        have hlist0 : list.countP (fun x => decide (x.id = L.id)) = 0 := by
          have hempty := List.isEmpty_iff.mp h2
          rw [← hfold_count, hempty]
          rfl
        have hne : ¬ e = nm := by
          intro hc
          subst hc
          rw [hm] at hmnm
          injection hmnm with heq
          rw [heq] at hlist0
          omega
        refine ⟨?_, ?_, hE3', hE4'⟩
        · rw [hl, mapGet_mapDelete_ne st.listeners e nm hne]
          exact hE1
        · unfold exactEntries at hE2 ⊢
          rw [hl]
          have hdel := countP_flatten_mapDelete
            (fun x : StoredListener => decide (x.id = L.id)) st.listeners e
          rw [hm] at hdel
          simp only [Option.getD_some] at hdel
          omega
      · have hl : (pruneOnce st e (collectListeners st e)).listeners =
            mapSet st.listeners e
              (((collectListeners st e).filter (·.once)).foldl
                (fun l (f : StoredListener) =>
                  removeFirst (fun x : StoredListener => x.id = f.id) l)
                list) := by
          simp [pruneOnce, h1, hm, h2]
        refine ⟨?_, ?_, hE3', hE4'⟩
        · by_cases hne : e = nm
          · subst hne
            rw [hl, mapGet_mapSet_self]
            simp only [Option.getD_some]
            rw [hfold_count]
            rw [hm] at hmnm
            injection hmnm with heq
            rw [heq]
            exact hwnm1
          · rw [hl, mapGet_mapSet_ne st.listeners e nm _ hne]
            exact hE1
        · unfold exactEntries at hE2 ⊢
          rw [hl]
          have hset := countP_flatten_mapSet
            (fun x : StoredListener => decide (x.id = L.id)) st.listeners e
            (((collectListeners st e).filter (·.once)).foldl
              (fun l (f : StoredListener) =>
                removeFirst (fun x : StoredListener => x.id = f.id) l)
              list)
          rw [hm] at hset
          simp only [Option.getD_some] at hset
          omega

theorem wild_chunk_count {beh : Nat → Nat → LAct} {pat : String}
    {L : StoredListener} {st : EmitterState} (hin : Inert beh)
    (hinv : WildUnique pat L st) (e : String) (p : Nat) :
    (dispatch beh st e p).log.count L.id =
      if matchWildcard pat e then 1 else 0 := by
  obtain ⟨hW1, hW2, hW4⟩ := hinv
  rw [(dispatch_inert (s := st) (e := e) (p := p) hin).2.1, count_map_id,
    (collectListeners_perm st e).countP_eq, List.countP_append]
  have hexact : ((mapGet st.listeners e).getD []).countP
      (fun x => decide (x.id = L.id)) = 0 := by
    cases hm : mapGet st.listeners e with
    | none => simp
    | some w =>
      have hle := (mapGet_sublist_flatten hm).countP_le
        (fun x : StoredListener => decide (x.id = L.id))
      unfold exactEntries at hW2
      simp only [Option.getD_some]
      omega
  rw [hexact]
  have hwild : ((st.wildcardListeners.filter
      (fun w => matchWildcard w.1 e)).map (·.2)).countP
      (fun x => decide (x.id = L.id)) =
      if matchWildcard pat e then 1 else 0 := by
    rw [List.countP_map, List.countP_filter]
    have hcongr : st.wildcardListeners.countP
        (fun w => ((fun x : StoredListener => decide (x.id = L.id)) ∘ (·.2)) w
          && matchWildcard w.1 e) =
        st.wildcardListeners.countP
        (fun w => matchWildcard w.1 e && decide (w.2.id = L.id)) := by
      apply List.countP_congr
      intro w hw
      simp [Bool.and_comm]
    rw [hcongr, ← List.countP_filter, hW1]
    by_cases hmt : matchWildcard pat e = true <;> simp [List.countP_cons, hmt]
  rw [hwild]
  by_cases hmt : matchWildcard pat e = true <;> simp [hmt]

theorem wild_preserved {beh : Nat → Nat → LAct} {pat : String}
    {L : StoredListener} {st : EmitterState} (hin : Inert beh)
    (hinv : WildUnique pat L st) (e : String) (p : Nat) :
    WildUnique pat L (dispatch beh st e p).state := by
  obtain ⟨hW1, hW2, hW4⟩ := hinv
  rw [(dispatch_inert (s := st) (e := e) (p := p) hin).1]
  have hdisj : ∀ f ∈ (collectListeners st e).filter (·.once),
      ¬ f.id = L.id := by
    intro f hf hid
    have hfc := List.mem_of_mem_filter hf
    have hfall := collect_mem_allEntries hfc
    have hfonce : f.once = true := (List.mem_filter.mp hf).2
    have hff := hW4 f hfall hid
    rw [hff] at hfonce
    exact Bool.noConfusion hfonce
  by_cases h1 : ((collectListeners st e).filter (·.once)).isEmpty = true
  · have hp : pruneOnce st e (collectListeners st e) = st := by
      simp [pruneOnce, h1]
    rw [hp]
    exact ⟨hW1, hW2, hW4⟩
  · refine ⟨?_, ?_, ?_⟩
    · rw [pruneOnce_wild_eq st e (collectListeners st e) h1]
      rw [foldl_removeFirst_filter_disj]
      · exact hW1
      · intro f hf w hw
        simp only [decide_eq_true_eq] at hw
        simp only [decide_eq_false_iff_not]
        intro hwL
        exact hdisj f hf (by omega)
    · have hle := (pruneOnce_exactEntries_sublist st e
        (collectListeners st e)).countP_le
        (fun x : StoredListener => decide (x.id = L.id))
      omega
    · intro x hx hid
      exact hW4 x ((pruneOnce_allEntries_sublist st e _).subset hx) hid

theorem resumeGo_exact_count {beh : Nat → Nat → LAct} (hin : Inert beh)
    (nm : String) (L : StoredListener) :
    ∀ (pending : List (String × Nat)) (st : EmitterState) (log : List Nat),
    ExactUnique nm L st →
    (resumeGo beh pending st log).log.count L.id =
      log.count L.id + (pending.filter (fun b => b.1 = nm)).length := by
  intro pending
  induction pending with
  | nil =>
    intro st log hinv
    simp [resumeGo]
  | cons ep rest ih =>
    intro st log hinv
    rcases ep with ⟨e, p⟩
    have hd := dispatch_inert (s := st) (e := e) (p := p) hin
    have hstep : resumeGo beh ((e, p) :: rest) st log =
        resumeGo beh rest (dispatch beh st e p).state
          (log ++ (dispatch beh st e p).log) := by
      simp only [resumeGo]
      rw [hd.2.2]
    rw [hstep, ih _ _ (exact_preserved hin hinv e p), List.count_append,
      exact_chunk_count hin hinv e p]
    by_cases he : e = nm <;> simp [List.filter_cons, he] <;> omega

theorem resumeGo_wild_count {beh : Nat → Nat → LAct} (hin : Inert beh)
    (pat : String) (L : StoredListener) :
    ∀ (pending : List (String × Nat)) (st : EmitterState) (log : List Nat),
    WildUnique pat L st →
    (resumeGo beh pending st log).log.count L.id =
      log.count L.id +
        (pending.filter (fun b => matchWildcard pat b.1)).length := by
  intro pending
  induction pending with
  | nil =>
    intro st log hinv
    simp [resumeGo]
  | cons ep rest ih =>
    intro st log hinv
    rcases ep with ⟨e, p⟩
    have hd := dispatch_inert (s := st) (e := e) (p := p) hin
    have hstep : resumeGo beh ((e, p) :: rest) st log =
        resumeGo beh rest (dispatch beh st e p).state
          (log ++ (dispatch beh st e p).log) := by
      simp only [resumeGo]
      rw [hd.2.2]
    rw [hstep, ih _ _ (wild_preserved hin hinv e p), List.count_append,
      wild_chunk_count hin hinv e p]
    by_cases hmt : matchWildcard pat e = true <;>
      simp [List.filter_cons, hmt] <;> omega

theorem resumeGo_fresh {beh : Nat → Nat → LAct} (hin : Inert beh) (n : Nat) :
    ∀ (pending : List (String × Nat)) (st : EmitterState) (log : List Nat),
    n ∉ registryIds st → n ∉ log →
    n ∉ (resumeGo beh pending st log).log := by
  intro pending
  induction pending with
  | nil =>
    intro st log hreg hlog
    simpa [resumeGo] using hlog
  | cons ep rest ih =>
    intro st log hreg hlog
    rcases ep with ⟨e, p⟩
    have hd := dispatch_inert (s := st) (e := e) (p := p) hin
    have hstep : resumeGo beh ((e, p) :: rest) st log =
        resumeGo beh rest (dispatch beh st e p).state
          (log ++ (dispatch beh st e p).log) := by
      simp only [resumeGo]
      rw [hd.2.2]
    rw [hstep]
    apply ih
    · intro hc
      exact hreg (dispatch_registryIds_sub hin hc)
    · intro hc
      rcases List.mem_append.mp hc with hc | hc
      · exact hlog hc
      · exact hreg (dispatch_log_subset hin.noThrow n hc)

theorem exactUnique_of_mem (s : EmitterState) (nm : String)
    (L : StoredListener)
    (hLmem : L ∈ (mapGet s.listeners nm).getD [])
    (honce : L.once = false)
    (huniq : (registryIds s).count L.id = 1) :
    ExactUnique nm L s := by
  have huniq' : (allEntries s).countP (fun x => decide (x.id = L.id)) = 1 := by
    rw [← registryIds_count]
    exact huniq
  have hsum : (exactEntries s).countP (fun x => decide (x.id = L.id)) +
      (s.wildcardListeners.map (·.2)).countP
        (fun x => decide (x.id = L.id)) = 1 := by
    have h := huniq'
    unfold allEntries at h
    rwa [List.countP_append] at h
  have hwildrel : (s.wildcardListeners.map (·.2)).countP
      (fun x => decide (x.id = L.id)) =
      s.wildcardListeners.countP (fun w => decide (w.2.id = L.id)) := by
    rw [List.countP_map]
    rfl
  rw [hwildrel] at hsum
  cases hm : mapGet s.listeners nm with
  | none =>
    rw [hm] at hLmem
    simp at hLmem
  | some w =>
    rw [hm] at hLmem
    simp only [Option.getD_some] at hLmem
    have hpos : 0 < w.countP (fun x => decide (x.id = L.id)) :=
      List.countP_pos_iff.mpr ⟨L, hLmem, by simp⟩
    have hle : w.countP (fun x => decide (x.id = L.id)) ≤
        (exactEntries s).countP (fun x => decide (x.id = L.id)) := by
      unfold exactEntries
      exact (mapGet_sublist_flatten hm).countP_le _
    have hLall : L ∈ allEntries s := by
      unfold allEntries exactEntries
      exact List.mem_append.mpr
        (Or.inl (List.mem_flatten.mpr ⟨w, mapGet_mem_values hm, hLmem⟩))
    refine ⟨?_, by omega, by omega, ?_⟩
    · rw [hm]
      simp only [Option.getD_some]
      omega
    · intro x hx hid
      have hxL : x = L :=
        countP_one_unique huniq' hx (by simp [hid]) hLall (by simp)
      rw [hxL]
      exact honce

theorem wildUnique_of_mem (s : EmitterState) (pat : String)
    (L : StoredListener)
    (hLmem : (pat, L) ∈ s.wildcardListeners)
    (honce : L.once = false)
    (huniq : (registryIds s).count L.id = 1) :
    WildUnique pat L s := by
  have huniq' : (allEntries s).countP (fun x => decide (x.id = L.id)) = 1 := by
    rw [← registryIds_count]
    exact huniq
  have hsum : (exactEntries s).countP (fun x => decide (x.id = L.id)) +
      (s.wildcardListeners.map (·.2)).countP
        (fun x => decide (x.id = L.id)) = 1 := by
    have h := huniq'
    unfold allEntries at h
    rwa [List.countP_append] at h
  have hwildrel : (s.wildcardListeners.map (·.2)).countP
      (fun x => decide (x.id = L.id)) =
      s.wildcardListeners.countP (fun w => decide (w.2.id = L.id)) := by
    rw [List.countP_map]
    rfl
  rw [hwildrel] at hsum
  have hpos : 0 < s.wildcardListeners.countP
      (fun w => decide (w.2.id = L.id)) :=
    List.countP_pos_iff.mpr ⟨(pat, L), hLmem, by simp⟩
  have hw1 : s.wildcardListeners.countP
      (fun w => decide (w.2.id = L.id)) = 1 := by omega
  have hLall : L ∈ allEntries s := by
    unfold allEntries
    exact List.mem_append.mpr (Or.inr (List.mem_map.mpr ⟨(pat, L), hLmem, rfl⟩))
  refine ⟨?_, by omega, ?_⟩
  · have hlen : (s.wildcardListeners.filter
        (fun w => decide (w.2.id = L.id))).length = 1 := by
      rw [← List.countP_eq_length_filter]
      exact hw1
    rcases List.length_eq_one.mp hlen with ⟨z, hz⟩
    have hmem : (pat, L) ∈ s.wildcardListeners.filter
        (fun w => decide (w.2.id = L.id)) :=
      List.mem_filter.mpr ⟨hLmem, by simp⟩
    rw [hz] at hmem
    simp only [List.mem_singleton] at hmem
    rw [hz, hmem]
  · intro x hx hid
    have hxL : x = L :=
      countP_one_unique huniq' hx (by simp [hid]) hLall (by simp)
    rw [hxL]
    exact honce

/-- C6: the synchronous resume clears the paused flag and empties the
buffer, replaying every captured entry through the synchronous dispatch
against the registry as it stands at replay time: an id not registered at
resume time receives nothing; a non-once listener registered under the
exact name `nm` (with a unique id) is invoked once per buffered entry with
that name; a non-once wildcard listener `(pat, L)` is invoked once per
buffered entry whose name matches `pat` — in both cases including entries
buffered before it was subscribed.  Concretely: a listener subscribed while
paused after two buffered "t" events receives both on resume (log [4, 4]),
and replay happens in the original enqueue order (logs [1, 2] and [2, 1]
for the two enqueue orders). -/

theorem claimC6 (beh : Nat → Nat → LAct) (s : EmitterState) (hin : Inert beh) :
    ((resumeOp beh s).state.paused = false ∧
     (resumeOp beh s).state.buffer = [] ∧
     (resumeOp beh s).thrown = none) ∧
    (∀ n : Nat, n ∉ registryIds s → n ∉ (resumeOp beh s).log) ∧
    (∀ (nm : String) (L : StoredListener),
      L ∈ (mapGet s.listeners nm).getD [] → L.once = false →
      (registryIds s).count L.id = 1 →
      (resumeOp beh s).log.count L.id =
        (s.buffer.filter (fun b => b.1 = nm)).length) ∧
    (∀ (pat : String) (L : StoredListener),
      (pat, L) ∈ s.wildcardListeners → L.once = false →
      (registryIds s).count L.id = 1 →
      (resumeOp beh s).log.count L.id =
        (s.buffer.filter (fun b => matchWildcard pat b.1)).length) ∧
    ((resumeOp behInert emitterReplay).log = [4, 4] ∧
     (resumeOp behInert emitterOrderAB).log = [1, 2] ∧
     (resumeOp behInert emitterOrderBA).log = [2, 1]) := by
  have hfields := resumeGo_inert_fields hin s.buffer
    { s with paused := false, buffer := [] } []
  refine ⟨⟨?_, ?_, ?_⟩, ?_, ?_, ?_, by decide, by decide, by decide⟩
  · rw [resumeOp_def]
    exact hfields.2.2.1
  · rw [resumeOp_def]
    exact hfields.1
  · rw [resumeOp_def]
    exact hfields.2.2.2
  · intro n hreg
    rw [resumeOp_def]
    exact resumeGo_fresh hin n s.buffer _ [] hreg (List.not_mem_nil n)
  · intro nm L h1 h2 h3
    have hinv : ExactUnique nm L s := exactUnique_of_mem s nm L h1 h2 h3
    rw [resumeOp_def,
      resumeGo_exact_count hin nm L s.buffer
        { s with paused := false, buffer := [] } [] hinv]
    simp
  · intro pat L h1 h2 h3
    have hinv : WildUnique pat L s := wildUnique_of_mem s pat L h1 h2 h3
    rw [resumeOp_def,
      resumeGo_wild_count hin pat L s.buffer
        { s with paused := false, buffer := [] } [] hinv]
    simp

theorem claimC6_witness :
    Inert behInert ∧
    (((resumeOp behInert emitterReplay).state.paused = false ∧
      (resumeOp behInert emitterReplay).state.buffer = [] ∧
      (resumeOp behInert emitterReplay).thrown = none) ∧
     (∀ n : Nat, n ∉ registryIds emitterReplay →
       n ∉ (resumeOp behInert emitterReplay).log) ∧
     (∀ (nm : String) (L : StoredListener),
       L ∈ (mapGet emitterReplay.listeners nm).getD [] → L.once = false →
       (registryIds emitterReplay).count L.id = 1 →
       (resumeOp behInert emitterReplay).log.count L.id =
         (emitterReplay.buffer.filter (fun b => b.1 = nm)).length) ∧
     (∀ (pat : String) (L : StoredListener),
       (pat, L) ∈ emitterReplay.wildcardListeners → L.once = false →
       (registryIds emitterReplay).count L.id = 1 →
       (resumeOp behInert emitterReplay).log.count L.id =
         (emitterReplay.buffer.filter
           (fun b => matchWildcard pat b.1)).length) ∧
     ((resumeOp behInert emitterReplay).log = [4, 4] ∧
      (resumeOp behInert emitterOrderAB).log = [1, 2] ∧
      (resumeOp behInert emitterOrderBA).log = [2, 1])) :=
  ⟨behInert_inert, claimC6 behInert emitterReplay behInert_inert⟩

/-- The matcher loop terminates: its result does not depend on the fuel once
the fuel exceeds the explicit measure
`(|event| + 1 - starIdx) * (|pattern| + 1) + (|pattern| - pi)`, which
strictly decreases on every iteration of the source's `while` loop (the
anchor invariant `starEi ≤ ei` holds throughout). -/

theorem mwGo_fuel_irrel (pp ee : List String) :
    ∀ f1 f2 pi ei star,
    (∀ sPi sEi, star = some (sPi, sEi) → sEi ≤ ei) →
    (ee.length + 1 - mwStarIdx star) * (pp.length + 1) + (pp.length - pi)
      < f1 →
    (ee.length + 1 - mwStarIdx star) * (pp.length + 1) + (pp.length - pi)
      < f2 →
    mwGo pp ee f1 pi ei star = mwGo pp ee f2 pi ei star := by
  intro f1
  induction f1 with
  | zero =>
    intro f2 pi ei star hinv h1 h2
    omega
  | succ g1 ih =>
    intro f2 pi ei star hinv h1 h2
    cases f2 with
    | zero => omega
    | succ g2 =>
      have hidx : mwStarIdx star ≤ ei + 1 := by
        cases star with
        | none => simp [mwStarIdx]
        | some pr =>
          rcases pr with ⟨sPi, sEi⟩
          have := hinv sPi sEi rfl
          simp only [mwStarIdx]
          omega
      by_cases he : ei < ee.length
      · by_cases hb1 : pi < pp.length ∧ pp.getD pi "" = "**"
        · have hs1 : mwGo pp ee (g1+1) pi ei star =
              mwGo pp ee g1 (pi+1) ei (some (pi, ei)) := by
            simp only [mwGo]
            rw [if_pos he, if_pos hb1]
          have hs2 : mwGo pp ee (g2+1) pi ei star =
              mwGo pp ee g2 (pi+1) ei (some (pi, ei)) := by
            simp only [mwGo]
            rw [if_pos he, if_pos hb1]
          rw [hs1, hs2]
          have hA : (ee.length + 1 - (ei + 1)) ≤
              (ee.length + 1 - mwStarIdx star) := by omega
          have hAm : (ee.length + 1 - (ei + 1)) * (pp.length + 1) ≤
              (ee.length + 1 - mwStarIdx star) * (pp.length + 1) :=
            Nat.mul_le_mul_right _ hA
          apply ih g2 (pi+1) ei (some (pi, ei))
          · intro sPi sEi hsome
            injection hsome with hpr
            have := congrArg Prod.snd hpr
            simp at this
            omega
          · simp only [mwStarIdx]
            have hpi := hb1.1
            omega
          · simp only [mwStarIdx]
            have hpi := hb1.1
            omega
        · by_cases hb2 : pi < pp.length ∧
              (pp.getD pi "" = "*" ∨ pp.getD pi "" = ee.getD ei "")
          · have hs1 : mwGo pp ee (g1+1) pi ei star =
                mwGo pp ee g1 (pi+1) (ei+1) star := by
              simp only [mwGo]
              rw [if_pos he, if_neg hb1, if_pos hb2]
            have hs2 : mwGo pp ee (g2+1) pi ei star =
                mwGo pp ee g2 (pi+1) (ei+1) star := by
              simp only [mwGo]
              rw [if_pos he, if_neg hb1, if_pos hb2]
            rw [hs1, hs2]
            apply ih g2 (pi+1) (ei+1) star
            · intro sPi sEi hsome
              have := hinv sPi sEi hsome
              omega
            · have hpi := hb2.1
              omega
            · have hpi := hb2.1
              omega
          · cases star with
            | none =>
              have hs1 : mwGo pp ee (g1+1) pi ei none = false := by
                simp only [mwGo]
                rw [if_pos he, if_neg hb1, if_neg hb2]
              have hs2 : mwGo pp ee (g2+1) pi ei none = false := by
                simp only [mwGo]
                rw [if_pos he, if_neg hb1, if_neg hb2]
              rw [hs1, hs2]
            | some pr =>
              rcases pr with ⟨sPi, sEi⟩
              have hsE := hinv sPi sEi rfl
              have hs1 : mwGo pp ee (g1+1) pi ei (some (sPi, sEi)) =
                  mwGo pp ee g1 (sPi+1) (sEi+1) (some (sPi, sEi+1)) := by
                simp only [mwGo]
                rw [if_pos he, if_neg hb1, if_neg hb2]
              have hs2 : mwGo pp ee (g2+1) pi ei (some (sPi, sEi)) =
                  mwGo pp ee g2 (sPi+1) (sEi+1) (some (sPi, sEi+1)) := by
                simp only [mwGo]
                rw [if_pos he, if_neg hb1, if_neg hb2]
              rw [hs1, hs2]
              have hmul : (ee.length + 1 - (sEi + 1 + 1)) * (pp.length + 1) +
                  (pp.length + 1) =
                  (ee.length + 1 - (sEi + 1)) * (pp.length + 1) := by
                have hstep : ee.length + 1 - (sEi + 1) =
                    (ee.length + 1 - (sEi + 1 + 1)) + 1 := by omega
                rw [hstep, Nat.succ_mul]
              simp only [mwStarIdx] at h1 h2 ⊢
              apply ih g2 (sPi+1) (sEi+1) (some (sPi, sEi+1))
              · intro sPi' sEi' hsome
                injection hsome with hpr
                have := congrArg Prod.snd hpr
                simp at this
                omega
              · simp only [mwStarIdx]
                omega
              · simp only [mwStarIdx]
                omega
      · have hs1 : mwGo pp ee (g1+1) pi ei star =
            (pp.drop pi).all (fun s => s == "**") := by
          simp only [mwGo]
          rw [if_neg he]
        have hs2 : mwGo pp ee (g2+1) pi ei star =
            (pp.drop pi).all (fun s => s == "**") := by
          simp only [mwGo]
          rw [if_neg he]
        rw [hs1, hs2]

/-- Any fuel above the initial measure computes `matchWildcard`. -/

theorem matchWildcard_fuel (p e : String) (f : Nat)
    (hf : ((splitSeg e).length + 1) * ((splitSeg p).length + 1) +
      (splitSeg p).length < f) :
    mwGo (splitSeg p) (splitSeg e) f 0 0 none = matchWildcard p e := by
  have hkey : ((splitSeg e).length + 2) * ((splitSeg p).length + 2) =
      ((splitSeg e).length + 1) * ((splitSeg p).length + 1) +
        ((splitSeg e).length + (splitSeg p).length + 3) := by
    ring
  have hdef : matchWildcard p e =
      mwGo (splitSeg p) (splitSeg e)
        (((splitSeg e).length + 2) * ((splitSeg p).length + 2)) 0 0 none := rfl
  rw [hdef]
  apply mwGo_fuel_irrel (splitSeg p) (splitSeg e) f _ 0 0 none
  · intro sPi sEi hsome
    exact Option.noConfusion hsome
  · simp only [mwStarIdx, Nat.sub_zero]
    exact hf
  · simp only [mwStarIdx, Nat.sub_zero]
    omega
